import Mathlib

/-!
# Token Action HUD core: Item Macro action-list extender and category resizer

A shallow embedding of

* `scripts/action-handlers/item-macro-extender.js` (`ItemMacroActionListExtender`), and
* `scripts/utilities/category-resizer.js` (`CategoryResizer`, the column and width arithmetic),

followed by the properties of the extension contract and of the layout arithmetic.

Conventions of the embedding.

* JavaScript objects held in `group.actions` are mutated in place by the extender.  The array is
  modelled as a `List Action` of values and an in-place mutation of the object in slot `i` is a
  replacement of the `i`-th value.  Distinct slots are taken to hold distinct objects, which is the
  case for every list whose ids are unique.
* The constants `DELIMITER` and `ITEM_MACRO_ICON` are imported from `constants.js`; they are carried
  as the parameter `Constants`.
* `Utils.isModuleActive('midi-qol')` and `Utils.getSetting('itemMacro')` are passed as arguments.
-/

namespace TokenActionHud

/-! ## Data model -/

/-- Constants imported from `../constants.js`. -/
structure Constants where
  DELIMITER : String
  ICON : String
  TOOLTIP : String
deriving Repr

/-- An action of the HUD.  `itemMacroIcon` is absent until the extender writes it;
`displayFields` stands for the remaining display properties, which the extender never touches. -/
structure Action where
  id : String
  name : String
  fullName : String
  listName : String
  encodedValue : String
  itemMacroIcon : Option String
  displayFields : List (String × String)
deriving DecidableEq, Repr

/-- A group of the action handler with its ordered action list. -/
structure Group where
  nestId : String
  actions : List Action
deriving DecidableEq, Repr

/-- The projection of an actor item the extender reads: its id, the Item Macro command
(`item.flags?.itemacro?.macro?.command`) and the midi-qol flag
(`item.getFlag('midi-qol', 'onUseMacroName')`). -/
structure Item where
  id : String
  macroCommand : Option String
  onUseMacroName : Option String
deriving DecidableEq, Repr

/-- The actor: only its item collection is read. -/
structure Actor where
  items : List Item
deriving DecidableEq, Repr

/-- The action handler as seen by the extender: `actor` may be absent. -/
structure ActionHandler where
  actor : Option Actor
  groups : List Group
deriving DecidableEq, Repr

/-! ## JavaScript string and array primitives used by the extender -/

/-- Truthiness of an optional string value: absent and the empty string are falsy. -/
def truthy : Option String → Bool
  | none => false
  | some s => s != ""

/-- Scan for the first position at which `needle` is a prefix of the remaining text;
`i` is the position of the head of the remaining text. -/
def indexOfAux (needle : List Char) : List Char → Nat → Int
  | [], i => if needle.isPrefixOf [] then (i : Int) else -1
  | c :: cs, i => if needle.isPrefixOf (c :: cs) then (i : Int) else indexOfAux needle cs (i + 1)

/-- The method `String.prototype.indexOf(searchString)`: first index of an occurrence, or `-1`. -/
def jsIndexOf (s searchString : String) : Int :=
  indexOfAux searchString.data s.data 0

/-- The method `String.prototype.substr(start)` without a length: a negative `start` counts from
the end of the string, and the start is clamped to the string. -/
def jsSubstr (s : String) (start : Int) : String :=
  let n : Int := s.data.length
  let k : Int := if start < 0 then max (n + start) 0 else min start n
  ⟨s.data.drop k.toNat⟩

/-- The method `Array.prototype.findIndex(p)`: index of the first match, or `-1`. -/
def jsFindIndex (p : Action → Bool) (l : List Action) : Int :=
  match l.findIdx? p with
  | some i => (i : Int)
  | none => -1

/-- The call `array.splice(index, 0, x)` for a non-negative `index`: insert `x` before position
`index`, at the end when `index` exceeds the length. -/
def jsSplice (l : List Action) (index : Int) (x : Action) : List Action :=
  l.take index.toNat ++ x :: l.drop index.toNat

/-- In-place mutation, by `f`, of the object that `Array.prototype.find(p)` returns:
the first element satisfying `p`. -/
def mutateFirst (p : Action → Bool) (f : Action → Action) : List Action → List Action
  | [] => []
  | a :: l => if p a then f a :: l else a :: mutateFirst p f l

/-! ## `ItemMacroActionListExtender` -/

/-- The id of the synthetic action derived from the action id `x`. -/
def itemMacroId (x : String) : String := "itemMacro+" ++ x

/-- The method `_createItemMacroAction (existingAction, actionToReplace, replace)`.
The result is the written object: `actionToReplace` after its mutation when `replace`,
a mutated deep clone of `existingAction` otherwise.  Every right-hand side reads a field of
`existingAction` that no earlier assignment changed, also when both arguments are one object. -/
def _createItemMacroAction (c : Constants) (existingAction actionToReplace : Action)
    (replace : Bool) : Action :=
  let action := if replace then actionToReplace else existingAction
  { action with
    encodedValue :=
      "itemMacro" ++
        jsSubstr existingAction.encodedValue (jsIndexOf existingAction.encodedValue c.DELIMITER)
    id := itemMacroId existingAction.id
    fullName := existingAction.fullName
    listName := "Item Macro: " ++ existingAction.fullName
    name := existingAction.name
    itemMacroIcon := some ("<i class=\"" ++ c.ICON ++ "\" title=\"" ++ c.TOOLTIP ++ "\"></i>") }

/-- The state of the `forEach` of `_addGroupActions`: the group's action objects, the `replace`
variable captured by the callback, and the local array `actions` of staged insertions. -/
structure LoopState where
  actions : List Action
  replace : Bool
  staged : List Action
deriving DecidableEq, Repr

/-- One call of the `forEach` callback of `_addGroupActions`, for the element in slot `i`. -/
def groupStep (c : Constants) (itemIds : List String) (s : LoopState) (i : Nat) : LoopState :=
  match s.actions[i]? with
  | none => s
  | some existingAction =>
    if !(itemIds.contains existingAction.id) then s
    else
      let isTwin : Action → Bool := fun action => action.id == itemMacroId existingAction.id
      match s.actions.find? isTwin with
      | some _ =>
        { actions :=
            mutateFirst isTwin (fun twin => _createItemMacroAction c existingAction twin true)
              s.actions
          replace := true
          staged := s.staged }
      | none =>
        if s.replace then
          { s with
            actions := s.actions.set i (_createItemMacroAction c existingAction existingAction true) }
        else
          { s with
            staged := s.staged ++ [_createItemMacroAction c existingAction existingAction false] }

/-- The method `_addActions (actions, group)`: each staged action is spliced in at
`findIndex(action => action.id === macroAction.id) + 1`. -/
def _addActions (actions : List Action) (groupActions : List Action) : List Action :=
  actions.foldl
    (fun ga macroAction =>
      jsSplice ga (jsFindIndex (fun action => action.id == macroAction.id) ga + 1) macroAction)
    groupActions

/-- The `forEach` loop of `_addGroupActions` over the slots of `group.actions`. -/
def groupLoop (c : Constants) (itemIds : List String) (actions : List Action) (replace : Bool) :
    LoopState :=
  (List.range actions.length).foldl (groupStep c itemIds) ⟨actions, replace, []⟩

/-- The method `_addGroupActions (itemIds, group, replace)`. -/
def _addGroupActions (c : Constants) (itemIds : List String) (group : Group) (replace : Bool) :
    Group :=
  if group.actions.length = 0 then group
  else
    let s := groupLoop c itemIds group.actions replace
    { group with actions := _addActions s.staged s.actions }

/-- The method `_isUnsupportedByMidiQoL (item)`: the item has no truthy `onUseMacroName` flag.
The method returns `!flag`, as its name says; its JSDoc line, `Whether the item is supported by
MidiQoL or not`, reads the other way round. -/
def _isUnsupportedByMidiQoL (item : Item) : Bool :=
  !(truthy item.onUseMacroName)

/-- Lines 22 to 31 of `extendActionList`: the candidate item ids. -/
def candidateItemIds (midiQolActive : Bool) (actor : Actor) : List String :=
  let items := actor.items.filter (fun item => truthy item.macroCommand)
  if midiQolActive then (items.filter _isUnsupportedByMidiQoL).map (fun item => item.id)
  else items.map (fun item => item.id)

/-- Lines 33 to 45 of `extendActionList`: the part that runs once the candidate ids are known. -/
def extendGroups (c : Constants) (itemIds : List String) (itemMacroSetting : String)
    (groups : List Group) : List Group :=
  if itemIds.length = 0 then groups
  else if itemMacroSetting = "original" then groups
  else
    let replace := itemMacroSetting == "itemMacro"
    groups.map (fun group => _addGroupActions c itemIds group replace)

/-- The method `extendActionList ()`, with the module state and the setting as arguments. -/
def extendActionList (c : Constants) (midiQolActive : Bool) (itemMacroSetting : String)
    (h : ActionHandler) : ActionHandler :=
  match h.actor with
  | none => h
  | some actor =>
    { h with groups := extendGroups c (candidateItemIds midiQolActive actor) itemMacroSetting h.groups }

/-- The test `x.startsWith("itemMacro+")` on an id. -/
def isItemMacroId (x : String) : Bool :=
  "itemMacro+".data.isPrefixOf x.data

/-! ## `CategoryResizer`: column and width arithmetic

Pixel widths of grid mode are whole numbers (`Math.floor`, `Math.ceil` and `Math.round` results)
and are modelled in `Nat`; the widths of flow mode are doubles, modelled as rationals with the
arithmetic operations as a parameter. -/

/-- Search for the least `k` with `n ≤ k * k`, starting at `k` with `fuel` steps left. -/
def ceilSqrtAux (n : Nat) : Nat → Nat → Nat
  | 0, k => k
  | fuel + 1, k => if n ≤ k * k then k else ceilSqrtAux n fuel (k + 1)

/-- The value `Math.ceil(Math.sqrt(n))` for an element count `n`. -/
def ceilSqrt (n : Nat) : Nat := ceilSqrtAux n n 0

/-- The field `minCols = 3`, restored by `_resetVariables` on every pass. -/
def minCols : Nat := 3

/-- The column count `cols` of `_resizeGrid`, for `actions.length = actionCount`.  The style the
method writes is `display: grid` with `gridTemplateColumns: repeat(cols, gridWidth px)`; the
comment above the assignment speaks of `maxHeight` and `width`, which are not written.
`availableWidth / gridWidth` is the floored quotient `Math.floor(availableWidth / gridWidth)`
of a non-negative width by a positive grid width. -/
def _resizeGrid (availableWidth gridWidth actionCount : Nat) : Nat :=
  let squaredCols := ceilSqrt actionCount
  let availableCols := availableWidth / gridWidth
  if squaredCols > availableCols then availableCols
  else if actionCount ≤ minCols then actionCount
  else squaredCols

/-- The arithmetic of JavaScript numbers on finite values.  The code computes with IEEE 754
doubles, whose sum, difference, product and quotient are roundings of the exact results.  The
four operations are a parameter of the flow-mode embedding and nothing is assumed of them, so
that what is proved holds for the arithmetic of doubles as for any other. -/
structure NumberOps where
  add : ℚ → ℚ → ℚ
  sub : ℚ → ℚ → ℚ
  mul : ℚ → ℚ → ℚ
  div : ℚ → ℚ → ℚ

/-- Exact arithmetic.  It is the arithmetic of doubles wherever the exact result is a double, as
for sums, differences and products of whole numbers of pixels and for whole quotients. -/
def exactOps : NumberOps :=
  ⟨fun a b => a + b, fun a b => a - b, fun a b => a * b, fun a b => a / b⟩

/-- The part of `action.getBoundingClientRect()` that `_resize` reads. -/
structure ActionRect where
  left : ℚ
  width : ℚ

/-- The `forEach` of lines 181 to 186 of `_resize`: `groupWidth` after the remaining actions,
where `index` is the index of the first of them.  `Math.ceil(parseFloat(width) + 1 || 0)` is the
ceiling of `width + 1`, also when that sum is zero. -/
def groupWidthLoop (ops : NumberOps) (groupsElementRectLeft : ℚ) :
    List ActionRect → Nat → ℚ → ℚ
  | [], _, groupWidth => groupWidth
  | actionRect :: rest, index, groupWidth =>
    let actionLeft : ℚ := if index = 0 then ops.sub actionRect.left groupsElementRectLeft else 0
    let actionWidth : ℚ := ((⌈ops.add actionRect.width 1⌉ : Int) : ℚ)
    groupWidthLoop ops groupsElementRectLeft rest (index + 1)
      (ops.add groupWidth (ops.add actionWidth actionLeft))

/-- Lines 175 to 195 of `_resize`: the pair of `maxActions` and `maxGroupWidth`, the latter after
the two additions of lines 194 and 195.  `maxActions` stays `0` when there is no `.tah-action` or
when `groupWidth` is not above `0`. -/
def measureActions (ops : NumberOps) (groupsElementRectLeft groupsElementPadding : ℚ)
    (actions : List ActionRect) : Nat × ℚ :=
  let groupWidth : ℚ :=
    if actions.length > 0 then groupWidthLoop ops groupsElementRectLeft actions 0 0 else 0
  let maxActions : Nat := if actions.length > 0 ∧ groupWidth > 0 then actions.length else 0
  let maxGroupWidth : ℚ := if actions.length > 0 ∧ groupWidth > 0 then groupWidth else 0
  let maxGroupWidth := ops.add maxGroupWidth (ops.sub (ops.mul maxActions 5) 5)
  let maxGroupWidth := ops.add maxGroupWidth groupsElementPadding
  (maxActions, maxGroupWidth)

/-- The column count of `_resize` (flow mode), lines 199 to 203, for a finite
`medianWidthPerAction`. -/
def flowCols (ops : NumberOps) (availableWidth medianWidthPerAction : ℚ) (maxActions : Nat) :
    Int :=
  let defaultCols : Int := 5
  let cols : Int := if (maxActions : Int) < defaultCols then (maxActions : Int) else defaultCols
  let availableCols : Int := ⌊ops.div availableWidth medianWidthPerAction⌋
  let sqrtActionsPerGroup : Int := (ceilSqrt maxActions : Int)
  if sqrtActionsPerGroup > cols ∧ sqrtActionsPerGroup ≤ availableCols then sqrtActionsPerGroup
  else cols

/-- The width of `_resize` in adaptive mode, lines 199 to 208, for a finite
`medianWidthPerAction`: the product of line 206 and the two clamps of lines 207 and 208. -/
def flowWidth (ops : NumberOps) (availableWidth medianWidthPerAction : ℚ) (maxActions : Nat) :
    ℚ :=
  let cols := flowCols ops availableWidth medianWidthPerAction maxActions
  let width := ops.mul medianWidthPerAction cols
  let width := if width > availableWidth then availableWidth else width
  if width < 200 then 200 else width

/-- The pixel width that `_resize` writes to the actions element, `none` standing for `NaN`.
In custom-width mode the width is `availableWidth`.  Otherwise the actions are measured; with
`maxActions = 0` the quotient of line 196 is a division by zero (an infinity or `NaN`), `cols`
is `0`, the product of line 206 is `NaN`, both comparisons of lines 207 and 208 are false and
the method writes `NaNpx`.  With `maxActions` at least one the width is `flowWidth` of the
quotient. -/
def _resize (ops : NumberOps) (isCustomWidth : Bool) (availableWidth : ℚ)
    (groupsElementRectLeft groupsElementPadding : ℚ) (actions : List ActionRect) : Option ℚ :=
  if isCustomWidth then some availableWidth
  else
    let measured := measureActions ops groupsElementRectLeft groupsElementPadding actions
    if measured.1 = 0 then none
    else some (flowWidth ops availableWidth (ops.div measured.2 measured.1) measured.1)

/-- The ids of an action list, in order. -/
def actionIds (l : List Action) : List String := l.map (fun a => a.id)

/-! ## Sample data -/

/-- A value of the constants with the one-character delimiter `|`. -/
def sampleConstants : Constants := ⟨"|", "fas fa-sd-card", "Item Macro"⟩

/-- An item action as the system's action handler builds it for the item with id `x`. -/
def sampleAction (x : String) : Action :=
  ⟨x, "Name " ++ x, "Full " ++ x, "List " ++ x, "item|token|" ++ x, none, []⟩

/-- The synthetic action the extender derives from `sampleAction x`. -/
def sampleMacroAction (x : String) : Action :=
  ⟨"itemMacro+" ++ x, "Name " ++ x, "Full " ++ x, "Item Macro: Full " ++ x, "itemMacro|token|" ++ x,
    some "<i class=\"fas fa-sd-card\" title=\"Item Macro\"></i>", []⟩

/-! ## Invariants of the `forEach` loop of `_addGroupActions` -/

/-- Invariant of the loop before slot `i` is visited: the ids in the group are pairwise distinct,
so are the ids of the staged clones, no staged clone shares an id with an action of the group, and
every staged clone comes from a visited slot that still holds its source id. -/
structure LoopInv (i : Nat) (s : LoopState) : Prop where
  nodupActions : (actionIds s.actions).Nodup
  nodupStaged : (actionIds s.staged).Nodup
  disjoint : ∀ y ∈ actionIds s.staged, y ∉ actionIds s.actions
  source : ∀ y ∈ actionIds s.staged,
    ∃ k x, k < i ∧ (actionIds s.actions)[k]? = some x ∧ y = itemMacroId x

/-- The source action `a` is settled in the list `l`: `l` holds a synthetic twin of `a`, and
refreshing any twin of `a` from `a` changes nothing. -/
def Settled (c : Constants) (l : List Action) (a : Action) : Prop :=
  (∃ t ∈ l, t.id = itemMacroId a.id) ∧
    ∀ t ∈ l, t.id = itemMacroId a.id → _createItemMacroAction c a t true = t

/-- Invariant of the loop before slot `i` is visited: every visited slot that still holds a
candidate id is settled among the group's actions and the staged clones. -/
def TwinInv (c : Constants) (itemIds : List String) (i : Nat) (s : LoopState) : Prop :=
  ∀ k a, k < i → s.actions[k]? = some a → a.id ∈ itemIds → Settled c (s.actions ++ s.staged) a

/-- The in-place rewrite of replace mode: an action with a candidate id becomes its synthetic
action, any other action is kept. -/
def replaceCandidate (c : Constants) (itemIds : List String) (a : Action) : Action :=
  if a.id ∈ itemIds then _createItemMacroAction c a a true else a

/-! ## The candidate selection in the words of the specification -/

/-- The item has a non-empty macro command. -/
def hasMacroCommand (item : Item) : Bool :=
  match item.macroCommand with
  | some command => decide (command ≠ "")
  | none => false

/-- The item carries a companion override: a non-empty `onUseMacroName` flag of midi-qol. -/
def hasCompanionOverride (item : Item) : Bool :=
  match item.onUseMacroName with
  | some flag => decide (flag ≠ "")
  | none => false

/-- The candidate ids as the specification words them: with the companion module active, the ids
of the items with a macro command and without a companion override; with the module inactive,
the ids of all items with a macro command. -/
def specCandidateItemIds (companionActive : Bool) (items : List Item) : List String :=
  if companionActive then
    (items.filter (fun item => hasMacroCommand item && !hasCompanionOverride item)).map
      (fun item => item.id)
  else (items.filter (fun item => hasMacroCommand item)).map (fun item => item.id)

/-! ## Sample handlers -/

/-- A group with a single item action. -/
def groupA : Group := ⟨"g", [sampleAction "a"]⟩

/-- A group with two item actions. -/
def groupAB : Group := ⟨"g", [sampleAction "a", sampleAction "b"]⟩

/-- A group in which the action `a` already has its synthetic twin, followed by the action `b`. -/
def groupTwinThenB : Group := ⟨"g", [sampleAction "a", sampleMacroAction "a", sampleAction "b"]⟩

/-- A group in which the action `a` already has its synthetic twin. -/
def groupWithTwin : Group := ⟨"g", [sampleAction "a", sampleMacroAction "a"]⟩

/-- An actor with the item `a` that has a macro command, and the item `b` that has none. -/
def actorAB : Actor := ⟨[⟨"a", some "game.macro()", none⟩, ⟨"b", none, none⟩]⟩

/-- An actor with two macro items, of which `b` carries a midi-qol override. -/
def actorOverride : Actor :=
  ⟨[⟨"a", some "game.macro()", none⟩, ⟨"b", some "game.macro()", some "ItemMacro"⟩]⟩

/-! ## `CategoryResizer._getGridWidth`: the adjustment of the grid width -/

/-- One entry of the local array `actionWidths` of `_getGridWidth`: the rounded width of an
action and the rounded width of its button text, in whole pixels. -/
structure ActionWidth where
  actionWidth : Int
  actionButtonTextWidth : Int
deriving DecidableEq, Repr

/-- The constant `minActionButtonTextWidth = 30` of `_getGridWidth`. -/
def minActionButtonTextWidth : Int := 30

/-- The body of the second `for` loop of `_getGridWidth`, for one entry: the value of
`medianWidth` after the entry has been looked at. -/
def gridWidthStep (medianWidth : Int) (actionWidth : ActionWidth) : Int :=
  let availableactionButtonTextWidth :=
    medianWidth - (actionWidth.actionWidth - actionWidth.actionButtonTextWidth)
  if availableactionButtonTextWidth < minActionButtonTextWidth then
    (medianWidth - availableactionButtonTextWidth) + minActionButtonTextWidth
  else medianWidth

/-- The value `_getGridWidth` stores in `gridWidth`: the adjustment loop of lines 133 to 138 run
over `actionWidths`.  The starting value `medianWidth`, which the method computes as
`Math.ceil(Utils.median(actionWidthsForMedian) * 1.1)` from the measured elements, is an
argument. -/
def _getGridWidth (medianWidth : Int) (actionWidths : List ActionWidth) : Int :=
  actionWidths.foldl gridWidthStep medianWidth

/-- The width an action needs for its chrome and a label of 30 pixels:
`actionWidth - labelWidth + 30`. -/
def requiredWidth (actionWidth : ActionWidth) : Int :=
  actionWidth.actionWidth - actionWidth.actionButtonTextWidth + 30

/-- The grid width in the words of the specification: the maximum of the starting width and of
the required widths of all actions. -/
def specGridWidth (medianWidth : Int) (actionWidths : List ActionWidth) : Int :=
  (actionWidths.map requiredWidth).foldr max medianWidth

/-- Six actions, each 54 pixels wide, the first at the left edge of the groups element (at 10):
with a padding of 5 they measure `maxActions = 6` and `medianWidthPerAction = 360 / 6 = 60`. -/
def sampleRects : List ActionRect :=
  [⟨10, 54⟩, ⟨65, 54⟩, ⟨120, 54⟩, ⟨175, 54⟩, ⟨230, 54⟩, ⟨285, 54⟩]

/-- Three measured actions: the second and the third need more than the starting width 100. -/
def sampleWidths : List ActionWidth := [⟨90, 70⟩, ⟨140, 40⟩, ⟨120, 30⟩]

/-! ## Basic facts -/

theorem itemMacroId_injective {x y : String} (h : itemMacroId x = itemMacroId y) : x = y := by
  unfold itemMacroId at h
  have hd := congrArg String.data h
  simp only [String.data_append] at hd
  exact String.ext (List.append_cancel_left hd)

theorem isItemMacroId_itemMacroId (x : String) : isItemMacroId (itemMacroId x) = true := by
  unfold isItemMacroId itemMacroId
  rw [String.data_append, List.isPrefixOf_iff_prefix]
  exact List.prefix_append _ _

theorem foldl_range_induction {σ : Type} (step : σ → Nat → σ) (P : Nat → σ → Prop) (n : Nat)
    (s0 : σ) (h0 : P 0 s0) (hstep : ∀ i s, i < n → P i s → P (i + 1) (step s i)) :
    P n ((List.range n).foldl step s0) := by
  induction n with
  | zero => simpa using h0
  | succ m ih =>
    rw [List.range_succ, List.foldl_append]
    simp only [List.foldl_cons, List.foldl_nil]
    exact hstep m _ (Nat.lt_succ_self m)
      (ih (fun i s hi hp => hstep i s (Nat.lt_succ_of_lt hi) hp))

theorem mutateFirst_eq_set (p : Action → Bool) (f : Action → Action) :
    ∀ (l : List Action) (t : Action), l.find? p = some t →
      ∃ j, l[j]? = some t ∧ mutateFirst p f l = l.set j (f t)
  | [], t, h => by simp at h
  | a :: l, t, h => by
    by_cases hp : p a = true
    · rw [List.find?_cons_of_pos _ hp] at h
      cases h
      exact ⟨0, by simp, by simp [mutateFirst, hp]⟩
    · rw [List.find?_cons_of_neg _ hp] at h
      obtain ⟨j, hj, hm⟩ := mutateFirst_eq_set p f l t h
      exact ⟨j + 1, by simpa using hj, by simp [mutateFirst, hp, hm]⟩

theorem mutateFirst_eq_self (p : Action → Bool) (f : Action → Action) :
    ∀ (l : List Action), (∀ t ∈ l, p t = true → f t = t) → mutateFirst p f l = l
  | [], _ => rfl
  | a :: l, h => by
    by_cases hp : p a = true
    · simp [mutateFirst, hp, h a (List.mem_cons_self a l) hp]
    · simp only [mutateFirst, hp]
      rw [mutateFirst_eq_self p f l (fun t ht => h t (List.mem_cons_of_mem a ht))]
      simp

theorem ids_index_unique {l : List Action} (h : (l.map (fun a => a.id)).Nodup) {k m : Nat}
    {a b : Action} (hk : l[k]? = some a) (hm : l[m]? = some b) (hid : a.id = b.id) : k = m := by
  obtain ⟨hk1, hk2⟩ := List.getElem?_eq_some.mp hk
  obtain ⟨hm1, hm2⟩ := List.getElem?_eq_some.mp hm
  have hk1' : k < (l.map (fun a => a.id)).length := by simpa using hk1
  have hm1' : m < (l.map (fun a => a.id)).length := by simpa using hm1
  exact (@List.Nodup.getElem_inj_iff _ _ h k hk1' m hm1').mp (by simp [hk2, hm2, hid])

theorem jsSplice_perm (l : List Action) (index : Int) (x : Action) :
    (jsSplice l index x).Perm (x :: l) := by
  unfold jsSplice
  have h := @List.perm_middle _ x (l.take index.toNat) (l.drop index.toNat)
  rwa [List.take_append_drop] at h

theorem _addActions_perm (staged : List Action) :
    ∀ l : List Action, (_addActions staged l).Perm (staged ++ l) := by
  induction staged with
  | nil => intro l; simp [_addActions]
  | cons m rest ih =>
    intro l
    have h1 := ih (jsSplice l (jsFindIndex (fun action => action.id == m.id) l + 1) m)
    have h2 := jsSplice_perm l (jsFindIndex (fun action => action.id == m.id) l + 1) m
    have h3 : (rest ++ jsSplice l (jsFindIndex (fun action => action.id == m.id) l + 1) m).Perm
        (rest ++ m :: l) := List.Perm.append_left rest h2
    have h4 : (rest ++ m :: l).Perm (m :: rest ++ l) := by
      simp
    exact (h1.trans h3).trans h4

theorem _addGroupActions_actions (c : Constants) (itemIds : List String) (group : Group)
    (replace : Bool) :
    (_addGroupActions c itemIds group replace).actions =
      _addActions (groupLoop c itemIds group.actions replace).staged
        (groupLoop c itemIds group.actions replace).actions := by
  unfold _addGroupActions
  by_cases h : group.actions.length = 0
  · have h' : group.actions = [] := List.length_eq_zero.mp h
    simp [h', groupLoop, _addActions]
  · simp [h]

theorem _addGroupActions_nestId (c : Constants) (itemIds : List String) (group : Group)
    (replace : Bool) : (_addGroupActions c itemIds group replace).nestId = group.nestId := by
  unfold _addGroupActions
  by_cases h : group.actions.length = 0 <;> simp [h]

/-! ## The callback of `_addGroupActions`, case by case -/

@[simp] theorem _createItemMacroAction_id (c : Constants) (e t : Action) (r : Bool) :
    (_createItemMacroAction c e t r).id = itemMacroId e.id := rfl

theorem _createItemMacroAction_idem (c : Constants) (e t : Action) (r : Bool) :
    _createItemMacroAction c e (_createItemMacroAction c e t r) true =
      _createItemMacroAction c e t r := by
  cases r <;> rfl

theorem groupStep_cases (c : Constants) (itemIds : List String) (s : LoopState) (i : Nat) :
    (groupStep c itemIds s i = s ∧ ∀ e, s.actions[i]? = some e → e.id ∉ itemIds) ∨
    ∃ e, s.actions[i]? = some e ∧ e.id ∈ itemIds ∧
      ((∃ j t, s.actions[j]? = some t ∧ t.id = itemMacroId e.id ∧
          s.actions.find? (fun action => action.id == itemMacroId e.id) = some t ∧
          groupStep c itemIds s i =
            ⟨s.actions.set j (_createItemMacroAction c e t true), true, s.staged⟩) ∨
       ((∀ a ∈ s.actions, a.id ≠ itemMacroId e.id) ∧ s.replace = true ∧
          groupStep c itemIds s i =
            ⟨s.actions.set i (_createItemMacroAction c e e true), true, s.staged⟩) ∨
       ((∀ a ∈ s.actions, a.id ≠ itemMacroId e.id) ∧ s.replace = false ∧
          groupStep c itemIds s i =
            ⟨s.actions, false, s.staged ++ [_createItemMacroAction c e e false]⟩)) := by
  unfold groupStep
  cases he : s.actions[i]? with
  | none => left; simp
  | some e =>
    by_cases hmem : e.id ∈ itemIds
    · right
      refine ⟨e, rfl, hmem, ?_⟩
      have hc : (!(itemIds.contains e.id)) = false := by simp [hmem]
      simp only [hc]
      cases hf : s.actions.find? (fun action => action.id == itemMacroId e.id) with
      | some t =>
        left
        obtain ⟨j, hj, hm⟩ := mutateFirst_eq_set (fun action => action.id == itemMacroId e.id)
          (fun twin => _createItemMacroAction c e twin true) s.actions t hf
        have htid : t.id = itemMacroId e.id := by
          have := List.find?_some hf
          simpa using this
        exact ⟨j, t, hj, htid, rfl, by simp [hm]⟩
      | none =>
        right
        have hnone : ∀ a ∈ s.actions, a.id ≠ itemMacroId e.id := by
          intro a ha
          have := List.find?_eq_none.mp hf a ha
          simpa using this
        cases hr : s.replace with
        | true => left; exact ⟨hnone, rfl, by simp [hr]⟩
        | false => right; exact ⟨hnone, rfl, by simp [hr]⟩
    · left
      have hc : (!(itemIds.contains e.id)) = true := by simp [hmem]
      simp only [hc]
      refine ⟨by simp, ?_⟩
      intro e' he'
      cases he'
      exact hmem

theorem groupStep_length (c : Constants) (itemIds : List String) (s : LoopState) (i : Nat) :
    (groupStep c itemIds s i).actions.length = s.actions.length := by
  rcases groupStep_cases c itemIds s i with ⟨h, _⟩ | ⟨e, _, _, h⟩
  · rw [h]
  · rcases h with ⟨j, t, _, _, _, h⟩ | ⟨_, _, h⟩ | ⟨_, _, h⟩ <;> rw [h] <;> simp

/-! ## List facts about slots -/

theorem set_same_of_getElem? {α : Type} {l : List α} {j : Nat} {t : α} (h : l[j]? = some t) :
    l.set j t = l := by
  apply List.ext_getElem?
  intro n
  rw [List.getElem?_set']
  by_cases hn : j = n
  · subst hn; simp [h]
  · simp [hn]

theorem actionIds_set_same {l : List Action} {j : Nat} {t x : Action} (h : l[j]? = some t)
    (hx : x.id = t.id) : actionIds (l.set j x) = actionIds l := by
  unfold actionIds
  rw [List.map_set]
  apply set_same_of_getElem?
  simp [h, hx]

theorem nodup_getElem?_unique {l : List String} (h : l.Nodup) {k m : Nat} {x : String}
    (hk : l[k]? = some x) (hm : l[m]? = some x) : k = m := by
  obtain ⟨hk1, hk2⟩ := List.getElem?_eq_some.mp hk
  obtain ⟨hm1, hm2⟩ := List.getElem?_eq_some.mp hm
  exact (@List.Nodup.getElem_inj_iff _ _ h k hk1 m hm1).mp (hk2.trans hm2.symm)

theorem actionIds_getElem? (l : List Action) (k : Nat) :
    (actionIds l)[k]? = (l[k]?).map (fun a => a.id) := by
  unfold actionIds
  simp

theorem mem_actionIds {l : List Action} {y : String} :
    y ∈ actionIds l ↔ ∃ a ∈ l, a.id = y := by
  unfold actionIds
  simp

/-! ## Preservation of the loop invariant -/

theorem LoopInv_mono {i : Nat} {s : LoopState} (h : LoopInv i s) : LoopInv (i + 1) s where
  nodupActions := h.nodupActions
  nodupStaged := h.nodupStaged
  disjoint := h.disjoint
  source := fun y hy => by
    obtain ⟨k, x, hk, hx, hy'⟩ := h.source y hy
    exact ⟨k, x, Nat.lt_succ_of_lt hk, hx, hy'⟩

/-- No staged clone carries the synthetic id of the action in the slot being visited. -/
theorem LoopInv_not_staged {i : Nat} {s : LoopState} (h : LoopInv i s) {e : Action}
    (he : s.actions[i]? = some e) : itemMacroId e.id ∉ actionIds s.staged := by
  intro hy
  obtain ⟨k, x, hk, hx, hy'⟩ := h.source _ hy
  have hxe : x = e.id := (itemMacroId_injective hy').symm
  subst hxe
  have hi : (actionIds s.actions)[i]? = some e.id := by
    rw [actionIds_getElem?, he]; rfl
  have := nodup_getElem?_unique h.nodupActions hx hi
  omega

theorem LoopInv_step (c : Constants) (itemIds : List String) {i : Nat} {s : LoopState}
    (h : LoopInv i s) : LoopInv (i + 1) (groupStep c itemIds s i) := by
  rcases groupStep_cases c itemIds s i with ⟨heq, _⟩ | ⟨e, he, _, hcase⟩
  · rw [heq]; exact LoopInv_mono h
  · have hi : (actionIds s.actions)[i]? = some e.id := by
      rw [actionIds_getElem?, he]; rfl
    rcases hcase with ⟨j, t, hj, htid, _, heq⟩ | ⟨hnone, _, heq⟩ | ⟨hnone, _, heq⟩
    · -- the twin is refreshed in place: no id changes
      have hids : actionIds (s.actions.set j (_createItemMacroAction c e t true)) =
          actionIds s.actions := actionIds_set_same hj (by simp [htid])
      rw [heq]
      refine ⟨?_, h.nodupStaged, ?_, ?_⟩
      · simpa only [hids] using h.nodupActions
      · simpa only [hids] using h.disjoint
      · intro y hy
        obtain ⟨k, x, hk, hx, hy'⟩ := h.source y hy
        exact ⟨k, x, Nat.lt_succ_of_lt hk, by simpa only [hids] using hx, hy'⟩
    · -- the source is renamed in place
      have hfresh : itemMacroId e.id ∉ actionIds s.actions := by
        intro hy
        obtain ⟨a, ha, haid⟩ := mem_actionIds.mp hy
        exact hnone a ha haid
      have hids : actionIds (s.actions.set i (_createItemMacroAction c e e true)) =
          (actionIds s.actions).set i (itemMacroId e.id) := by
        unfold actionIds; rw [List.map_set]; rfl
      rw [heq]
      refine ⟨?_, h.nodupStaged, ?_, ?_⟩
      · show (actionIds (s.actions.set i _)).Nodup
        rw [hids]
        exact List.Nodup.set h.nodupActions hfresh
      · intro y hy hy2
        have hy2' : y ∈ (actionIds s.actions).set i (itemMacroId e.id) := by
          rw [← hids]; exact hy2
        rcases List.mem_or_eq_of_mem_set hy2' with hin | heq'
        · exact h.disjoint y hy hin
        · exact LoopInv_not_staged h he (heq' ▸ hy)
      · intro y hy
        obtain ⟨k, x, hk, hx, hy'⟩ := h.source y hy
        refine ⟨k, x, Nat.lt_succ_of_lt hk, ?_, hy'⟩
        show (actionIds (s.actions.set i _))[k]? = some x
        rw [hids, List.getElem?_set_ne (by omega)]
        exact hx
    · -- a clone is staged
      have hfresh : itemMacroId e.id ∉ actionIds s.actions := by
        intro hy
        obtain ⟨a, ha, haid⟩ := mem_actionIds.mp hy
        exact hnone a ha haid
      have hst : actionIds (s.staged ++ [_createItemMacroAction c e e false]) =
          actionIds s.staged ++ [itemMacroId e.id] := by
        unfold actionIds; simp
      rw [heq]
      refine ⟨h.nodupActions, ?_, ?_, ?_⟩
      · show (actionIds (s.staged ++ _)).Nodup
        rw [hst]
        refine List.Nodup.append h.nodupStaged (List.nodup_singleton _) ?_
        intro y hy hy2
        rw [List.mem_singleton] at hy2
        exact LoopInv_not_staged h he (hy2 ▸ hy)
      · intro y hy
        have hy' : y ∈ actionIds s.staged ++ [itemMacroId e.id] := by rw [← hst]; exact hy
        rcases List.mem_append.mp hy' with hin | hin
        · exact h.disjoint y hin
        · rw [List.mem_singleton] at hin
          rw [hin]; exact hfresh
      · intro y hy
        have hy' : y ∈ actionIds s.staged ++ [itemMacroId e.id] := by rw [← hst]; exact hy
        rcases List.mem_append.mp hy' with hin | hin
        · obtain ⟨k, x, hk, hx, hyx⟩ := h.source y hin
          exact ⟨k, x, Nat.lt_succ_of_lt hk, hx, hyx⟩
        · rw [List.mem_singleton] at hin
          exact ⟨i, e.id, Nat.lt_succ_self i, hi, hin⟩

theorem groupLoop_inv (c : Constants) (itemIds : List String) (actions : List Action)
    (replace : Bool) (hnd : (actionIds actions).Nodup) :
    LoopInv actions.length (groupLoop c itemIds actions replace) := by
  unfold groupLoop
  apply foldl_range_induction (groupStep c itemIds) LoopInv
  · exact ⟨hnd, by simp [actionIds], by simp [actionIds], by simp [actionIds]⟩
  · intro i s _ hs
    exact LoopInv_step c itemIds hs

/-- Unique ids are kept by `_addGroupActions`. -/
theorem _addGroupActions_nodup (c : Constants) (itemIds : List String) (group : Group)
    (replace : Bool) (hnd : (actionIds group.actions).Nodup) :
    (actionIds (_addGroupActions c itemIds group replace).actions).Nodup := by
  rw [_addGroupActions_actions]
  have hinv := groupLoop_inv c itemIds group.actions replace hnd
  have hperm := _addActions_perm (groupLoop c itemIds group.actions replace).staged
    (groupLoop c itemIds group.actions replace).actions
  have hperm' := hperm.map (fun a => a.id)
  unfold actionIds
  rw [hperm'.nodup_iff, List.map_append]
  refine List.Nodup.append hinv.nodupStaged hinv.nodupActions ?_
  intro y hy hy2
  exact hinv.disjoint y hy hy2

/-! ## Every candidate source is settled after one pass -/

theorem mem_set_cases {α : Type} {l : List α} {j : Nat} {x u : α} (h : u ∈ l.set j x) :
    u = x ∨ ∃ m, m ≠ j ∧ l[m]? = some u := by
  obtain ⟨m, hm⟩ := List.mem_iff_getElem?.mp h
  by_cases hmj : j = m
  · subst hmj
    rw [List.getElem?_set] at hm
    simp only [if_true] at hm
    split at hm
    · left; cases hm; rfl
    · cases hm
  · right
    rw [List.getElem?_set_ne hmj] at hm
    exact ⟨m, fun h' => hmj h'.symm, hm⟩

theorem mem_set_of_ne {α : Type} {l : List α} {j m : Nat} {x u : α} (hm : l[m]? = some u)
    (hne : m ≠ j) : u ∈ l.set j x := by
  apply List.mem_iff_getElem?.mpr
  exact ⟨m, by rw [List.getElem?_set_ne (fun h' => hne h'.symm)]; exact hm⟩

theorem not_candidate_itemMacroId {itemIds : List String}
    (hC : ∀ x ∈ itemIds, isItemMacroId x = false) (y : String) : itemMacroId y ∉ itemIds := by
  intro h
  have h1 := hC _ h
  rw [isItemMacroId_itemMacroId] at h1
  cases h1

theorem TwinInv_step (c : Constants) (itemIds : List String)
    (hC : ∀ x ∈ itemIds, isItemMacroId x = false) {i : Nat} {s : LoopState}
    (h : LoopInv i s) (h2 : TwinInv c itemIds i s) :
    TwinInv c itemIds (i + 1) (groupStep c itemIds s i) := by
  rcases groupStep_cases c itemIds s i with ⟨heq, hnot⟩ | ⟨e, he, hmem, hcase⟩
  · rw [heq]
    intro k a hk hka hcand
    rcases Nat.lt_succ_iff_lt_or_eq.mp hk with hlt | hki
    · exact h2 k a hlt hka hcand
    · subst hki; exact absurd hcand (hnot a hka)
  · -- an earlier source has another id than the source in slot `i`
    have hne : ∀ k a, k < i → s.actions[k]? = some a → itemMacroId a.id ≠ itemMacroId e.id := by
      intro k a hk hka hid
      have := ids_index_unique h.nodupActions hka he (itemMacroId_injective hid)
      omega
    rcases hcase with ⟨j, t, hj, htid, _, heq⟩ | ⟨hnone, _, heq⟩ | ⟨hnone, _, heq⟩
    · rw [heq]
      intro k a hk hka hcand
      have hjlt : j < s.actions.length := (List.getElem?_eq_some.mp hj).1
      have hkj : k ≠ j := by
        intro hkj
        subst hkj
        simp only [List.getElem?_set_self hjlt, Option.some.injEq] at hka
        subst hka
        exact not_candidate_itemMacroId hC _ hcand
      have hka' : s.actions[k]? = some a := by
        simpa only [List.getElem?_set_ne (fun h' => hkj h'.symm)] using hka
      rcases Nat.lt_succ_iff_lt_or_eq.mp hk with hlt | hki
      · obtain ⟨⟨t0, ht0, ht0id⟩, hall⟩ := h2 k a hlt hka' hcand
        refine ⟨⟨t0, ?_, ht0id⟩, ?_⟩
        · rcases List.mem_append.mp ht0 with hin | hin
          · obtain ⟨m, hm⟩ := List.mem_iff_getElem?.mp hin
            have hmj : m ≠ j := by
              intro hmj
              subst hmj
              rw [hj] at hm
              cases hm
              exact hne k a hlt hka' (ht0id.symm.trans htid)
            exact List.mem_append.mpr (Or.inl (mem_set_of_ne hm hmj))
          · exact List.mem_append.mpr (Or.inr hin)
        · intro u hu huid
          rcases List.mem_append.mp hu with hin | hin
          · rcases mem_set_cases hin with hux | ⟨m, _, hm⟩
            · subst hux
              exact absurd huid.symm (hne k a hlt hka')
            · exact hall u (List.mem_append.mpr (Or.inl (List.mem_iff_getElem?.mpr ⟨m, hm⟩))) huid
          · exact hall u (List.mem_append.mpr (Or.inr hin)) huid
      · subst hki
        rw [he] at hka'
        cases hka'
        refine ⟨⟨_, List.mem_append.mpr (Or.inl (List.mem_set _ _ hjlt _)), rfl⟩, ?_⟩
        intro u hu huid
        rcases List.mem_append.mp hu with hin | hin
        · rcases mem_set_cases hin with hux | ⟨m, hmj, hm⟩
          · subst hux
            exact _createItemMacroAction_idem c _ t true
          · exact absurd (ids_index_unique h.nodupActions hm hj (huid.trans htid.symm)) hmj
        · exact absurd (mem_actionIds.mpr ⟨u, hin, huid⟩) (LoopInv_not_staged h he)
    · rw [heq]
      intro k a hk hka hcand
      have hilt : i < s.actions.length := (List.getElem?_eq_some.mp he).1
      rcases Nat.lt_succ_iff_lt_or_eq.mp hk with hlt | hki
      · have hka' : s.actions[k]? = some a := by
          simpa only [List.getElem?_set_ne (show i ≠ k by omega)] using hka
        obtain ⟨⟨t0, ht0, ht0id⟩, hall⟩ := h2 k a hlt hka' hcand
        refine ⟨⟨t0, ?_, ht0id⟩, ?_⟩
        · rcases List.mem_append.mp ht0 with hin | hin
          · obtain ⟨m, hm⟩ := List.mem_iff_getElem?.mp hin
            have hmi : m ≠ i := by
              intro hmi
              subst hmi
              rw [he] at hm
              cases hm
              exact not_candidate_itemMacroId hC a.id (ht0id ▸ hmem)
            exact List.mem_append.mpr (Or.inl (mem_set_of_ne hm hmi))
          · exact List.mem_append.mpr (Or.inr hin)
        · intro u hu huid
          rcases List.mem_append.mp hu with hin | hin
          · rcases mem_set_cases hin with hux | ⟨m, _, hm⟩
            · subst hux
              exact absurd huid.symm (hne k a hlt hka')
            · exact hall u (List.mem_append.mpr (Or.inl (List.mem_iff_getElem?.mpr ⟨m, hm⟩))) huid
          · exact hall u (List.mem_append.mpr (Or.inr hin)) huid
      · subst hki
        simp only [List.getElem?_set_self hilt, Option.some.injEq] at hka
        subst hka
        exact absurd hcand (not_candidate_itemMacroId hC _)
    · rw [heq]
      intro k a hk hka hcand
      have hka' : s.actions[k]? = some a := hka
      rcases Nat.lt_succ_iff_lt_or_eq.mp hk with hlt | hki
      · obtain ⟨⟨t0, ht0, ht0id⟩, hall⟩ := h2 k a hlt hka' hcand
        refine ⟨⟨t0, ?_, ht0id⟩, ?_⟩
        · rcases List.mem_append.mp ht0 with hin | hin
          · exact List.mem_append.mpr (Or.inl hin)
          · exact List.mem_append.mpr (Or.inr (List.mem_append.mpr (Or.inl hin)))
        · intro u hu huid
          rcases List.mem_append.mp hu with hin | hin
          · exact hall u (List.mem_append.mpr (Or.inl hin)) huid
          · rcases List.mem_append.mp hin with hin2 | hin2
            · exact hall u (List.mem_append.mpr (Or.inr hin2)) huid
            · rw [List.mem_singleton] at hin2
              subst hin2
              exact absurd huid.symm (hne k a hlt hka')
      · subst hki
        rw [he] at hka'
        cases hka'
        refine ⟨⟨_, List.mem_append.mpr (Or.inr (List.mem_append.mpr
          (Or.inr (List.mem_singleton.mpr rfl)))), rfl⟩, ?_⟩
        intro u hu huid
        rcases List.mem_append.mp hu with hin | hin
        · exact absurd huid (hnone u hin)
        · rcases List.mem_append.mp hin with hin2 | hin2
          · exact absurd (mem_actionIds.mpr ⟨u, hin2, huid⟩) (LoopInv_not_staged h he)
          · rw [List.mem_singleton] at hin2
            subst hin2
            exact _createItemMacroAction_idem c _ _ false

theorem Settled_of_mem_iff {c : Constants} {l l' : List Action} {a : Action}
    (hmem : ∀ u, u ∈ l' ↔ u ∈ l) (h : Settled c l a) : Settled c l' a := by
  obtain ⟨⟨t, ht, htid⟩, hall⟩ := h
  exact ⟨⟨t, (hmem t).mpr ht, htid⟩, fun u hu huid => hall u ((hmem u).mp hu) huid⟩

theorem groupLoop_invs (c : Constants) (itemIds : List String)
    (hC : ∀ x ∈ itemIds, isItemMacroId x = false) (actions : List Action) (replace : Bool)
    (hnd : (actionIds actions).Nodup) :
    LoopInv actions.length (groupLoop c itemIds actions replace) ∧
      TwinInv c itemIds actions.length (groupLoop c itemIds actions replace) ∧
      (groupLoop c itemIds actions replace).actions.length = actions.length := by
  unfold groupLoop
  apply foldl_range_induction (groupStep c itemIds)
    (fun i s => LoopInv i s ∧ TwinInv c itemIds i s ∧ s.actions.length = actions.length)
  · refine ⟨⟨hnd, by simp [actionIds], by simp [actionIds], by simp [actionIds]⟩, ?_, rfl⟩
    intro k a hk
    omega
  · intro i s _ hs
    exact ⟨LoopInv_step c itemIds hs.1, TwinInv_step c itemIds hC hs.1 hs.2.1,
      by rw [groupStep_length]; exact hs.2.2⟩

/-- After one pass every action with a candidate id has a twin that a refresh leaves unchanged. -/
theorem _addGroupActions_settled (c : Constants) (itemIds : List String)
    (hC : ∀ x ∈ itemIds, isItemMacroId x = false) (group : Group) (replace : Bool)
    (hnd : (actionIds group.actions).Nodup) :
    ∀ a ∈ (_addGroupActions c itemIds group replace).actions, a.id ∈ itemIds →
      Settled c (_addGroupActions c itemIds group replace).actions a := by
  intro a ha hcand
  obtain ⟨hinv, htwin, hlen⟩ := groupLoop_invs c itemIds hC group.actions replace hnd
  have hperm := _addActions_perm (groupLoop c itemIds group.actions replace).staged
    (groupLoop c itemIds group.actions replace).actions
  rw [_addGroupActions_actions] at ha ⊢
  have hmem : ∀ u, u ∈ _addActions (groupLoop c itemIds group.actions replace).staged
      (groupLoop c itemIds group.actions replace).actions ↔
      u ∈ (groupLoop c itemIds group.actions replace).actions ++
        (groupLoop c itemIds group.actions replace).staged := by
    intro u
    rw [hperm.mem_iff, List.mem_append, List.mem_append]
    exact Or.comm
  rcases List.mem_append.mp ((hmem a).mp ha) with hin | hin
  · obtain ⟨k, hk⟩ := List.mem_iff_getElem?.mp hin
    have hklt : k < group.actions.length := by
      rw [← hlen]; exact (List.getElem?_eq_some.mp hk).1
    exact Settled_of_mem_iff hmem (htwin k a hklt hk hcand)
  · obtain ⟨k, x, _, _, hy⟩ := hinv.source a.id (mem_actionIds.mpr ⟨a, hin, rfl⟩)
    exact absurd (hy ▸ hcand) (not_candidate_itemMacroId hC x)

/-- On a list in which every candidate source is settled, the loop changes nothing. -/
theorem groupLoop_fixed (c : Constants) (itemIds : List String) (l : List Action)
    (replace : Bool) (hl : ∀ a ∈ l, a.id ∈ itemIds → Settled c l a) :
    (groupLoop c itemIds l replace).actions = l ∧ (groupLoop c itemIds l replace).staged = [] := by
  unfold groupLoop
  apply foldl_range_induction (groupStep c itemIds) (fun _ s => s.actions = l ∧ s.staged = [])
  · exact ⟨rfl, rfl⟩
  · intro i s _ hs
    obtain ⟨hs1, hs2⟩ := hs
    rcases groupStep_cases c itemIds s i with ⟨heq, _⟩ | ⟨e, he, hmem, hcase⟩
    · rw [heq]; exact ⟨hs1, hs2⟩
    · have hel : e ∈ l := hs1 ▸ List.mem_iff_getElem?.mpr ⟨i, he⟩
      obtain ⟨⟨t0, ht0, ht0id⟩, hall⟩ := hl e hel hmem
      rcases hcase with ⟨j, t, hj, htid, _, heq⟩ | ⟨hnone, _, _⟩ | ⟨hnone, _, _⟩
      · rw [heq]
        have htl : t ∈ l := hs1 ▸ List.mem_iff_getElem?.mpr ⟨j, hj⟩
        refine ⟨?_, hs2⟩
        show s.actions.set j (_createItemMacroAction c e t true) = l
        rw [hall t htl htid, set_same_of_getElem? hj, hs1]
      · exact absurd ht0id (hnone t0 (hs1 ▸ ht0))
      · exact absurd ht0id (hnone t0 (hs1 ▸ ht0))

theorem _addGroupActions_fixed (c : Constants) (itemIds : List String) (group : Group)
    (replace : Bool) (hl : ∀ a ∈ group.actions, a.id ∈ itemIds → Settled c group.actions a) :
    _addGroupActions c itemIds group replace = group := by
  have hact := _addGroupActions_actions c itemIds group replace
  have hnest := _addGroupActions_nestId c itemIds group replace
  obtain ⟨h1, h2⟩ := groupLoop_fixed c itemIds group.actions replace hl
  rw [h1, h2] at hact
  have hact' : (_addGroupActions c itemIds group replace).actions = group.actions := by
    rw [hact]; rfl
  cases hg : _addGroupActions c itemIds group replace with
  | mk n a =>
    rw [hg] at hact' hnest
    cases group
    simp only at hact' hnest
    rw [hact', hnest]

/-- One group: a second pass of `_addGroupActions` returns the result of the first. -/
theorem _addGroupActions_idem (c : Constants) (itemIds : List String)
    (hC : ∀ x ∈ itemIds, isItemMacroId x = false) (group : Group) (replace : Bool)
    (hnd : (actionIds group.actions).Nodup) :
    _addGroupActions c itemIds (_addGroupActions c itemIds group replace) replace =
      _addGroupActions c itemIds group replace :=
  _addGroupActions_fixed c itemIds _ replace
    (_addGroupActions_settled c itemIds hC group replace hnd)

/-! ## Groups of the handler, slot by slot -/

theorem extendGroups_getElem? (c : Constants) (itemIds : List String) (setting : String)
    (groups : List Group) (k : Nat) :
    (extendGroups c itemIds setting groups)[k]? =
      (groups[k]?).map (fun g =>
        if itemIds.length = 0 then g
        else if setting = "original" then g
        else _addGroupActions c itemIds g (setting == "itemMacro")) := by
  unfold extendGroups
  by_cases h1 : itemIds.length = 0
  · simp [h1]
  · by_cases h2 : setting = "original"
    · simp [h1, h2]
    · simp [h1, h2]

/-! ## Replace mode on a group without synthetic twins -/

theorem groupLoop_replace (c : Constants) (itemIds : List String) (actions : List Action)
    (hnd : (actionIds actions).Nodup)
    (hfresh : ∀ x ∈ itemIds, itemMacroId x ∉ actionIds actions) :
    (groupLoop c itemIds actions true).actions = actions.map (replaceCandidate c itemIds) ∧
      (groupLoop c itemIds actions true).staged = [] := by
  have key : (groupLoop c itemIds actions true).replace = true ∧
      (groupLoop c itemIds actions true).staged = [] ∧
        ∀ k, (groupLoop c itemIds actions true).actions[k]? =
          if k < actions.length then (actions[k]?).map (replaceCandidate c itemIds)
          else actions[k]? := by
    unfold groupLoop
    refine foldl_range_induction (groupStep c itemIds)
      (fun (i : Nat) (s : LoopState) =>
        s.replace = true ∧ s.staged = [] ∧
          ∀ k, s.actions[k]? =
            if k < i then (actions[k]?).map (replaceCandidate c itemIds) else actions[k]?)
      actions.length ⟨actions, true, []⟩ ?_ ?_
    · exact ⟨rfl, rfl, fun k => by simp⟩
    · intro i s _ hs
      obtain ⟨hrep, hst, hslots⟩ := hs
      have hsi : s.actions[i]? = actions[i]? := by simpa using hslots i
      rcases groupStep_cases c itemIds s i with ⟨heq, hnot⟩ | ⟨e, he, hmem, hcase⟩
      · rw [heq]
        refine ⟨hrep, hst, ?_⟩
        intro k
        rw [hslots k]
        by_cases hki : k = i
        · subst hki
          simp only [Nat.lt_irrefl, if_false, Nat.lt_succ_self, if_true]
          cases hk : actions[k]? with
          | none => rfl
          | some a =>
            have : a.id ∉ itemIds := hnot a (hsi.trans hk)
            simp [replaceCandidate, this]
        · have : (k < i + 1) = (k < i) := by
            apply propext; constructor <;> intro h <;> omega
          simp only [this]
      · have hei : actions[i]? = some e := hsi ▸ he
        rcases hcase with ⟨j, t, hj, htid, _, _⟩ | ⟨_, _, heq⟩ | ⟨_, hrepf, _⟩
        · -- a twin cannot exist
          exfalso
          rw [hslots j] at hj
          have horig : ∀ b, actions[j]? = some b → b.id = itemMacroId e.id → False := by
            intro b hb hbid
            exact hfresh e.id hmem (mem_actionIds.mpr ⟨b, List.mem_iff_getElem?.mpr ⟨j, hb⟩, hbid⟩)
          by_cases hji : j < i
          · simp only [hji, if_true] at hj
            cases hb : actions[j]? with
            | none => simp [hb] at hj
            | some b =>
              simp only [hb, Option.map_some', Option.some.injEq] at hj
              by_cases hbc : b.id ∈ itemIds
              · simp only [replaceCandidate, hbc, if_true] at hj
                have hid : itemMacroId b.id = itemMacroId e.id := by
                  rw [← htid, ← hj]; rfl
                have := ids_index_unique hnd hb hei (itemMacroId_injective hid)
                omega
              · simp only [replaceCandidate, hbc, if_false] at hj
                exact horig b hb (hj ▸ htid)
          · simp only [hji, if_false] at hj
            exact horig t hj htid
        · rw [heq]
          refine ⟨rfl, hst, ?_⟩
          intro k
          have hilt : i < s.actions.length := (List.getElem?_eq_some.mp he).1
          by_cases hki : k = i
          · subst hki
            simp only [List.getElem?_set_self hilt, Nat.lt_succ_self, if_true, hei,
              Option.map_some', replaceCandidate, hmem]
          · rw [List.getElem?_set_ne (fun h' => hki h'.symm), hslots k]
            have : (k < i + 1) = (k < i) := by
              apply propext; constructor <;> intro h <;> omega
            simp only [this]
        · rw [hrep] at hrepf; cases hrepf
  obtain ⟨_, hst, hslots⟩ := key
  refine ⟨?_, hst⟩
  apply List.ext_getElem?
  intro k
  rw [hslots k, List.getElem?_map]
  by_cases hk : k < actions.length
  · simp [hk]
  · simp only [hk, if_false]
    rw [List.getElem?_eq_none (by omega)]
    rfl

theorem _addGroupActions_replace (c : Constants) (itemIds : List String) (group : Group)
    (hnd : (actionIds group.actions).Nodup)
    (hfresh : ∀ x ∈ itemIds, itemMacroId x ∉ actionIds group.actions) :
    (_addGroupActions c itemIds group true).actions =
      group.actions.map (replaceCandidate c itemIds) := by
  rw [_addGroupActions_actions]
  obtain ⟨h1, h2⟩ := groupLoop_replace c itemIds group.actions hnd hfresh
  rw [h1, h2]
  rfl

/-! ## Actions that are no candidate and no twin -/

/-- An action whose id is neither a candidate nor a synthetic id keeps its slot in the loop. -/
theorem groupLoop_untouched (c : Constants) (itemIds : List String) (actions : List Action)
    (replace : Bool) {i0 : Nat} {a : Action} (ha : actions[i0]? = some a)
    (hcand : a.id ∉ itemIds) (hsyn : isItemMacroId a.id = false) :
    (groupLoop c itemIds actions replace).actions[i0]? = some a := by
  unfold groupLoop
  refine foldl_range_induction (groupStep c itemIds)
    (fun (_ : Nat) (s : LoopState) => s.actions[i0]? = some a)
    actions.length ⟨actions, replace, []⟩ ha ?_
  intro i s _ hs
  rcases groupStep_cases c itemIds s i with ⟨heq, _⟩ | ⟨e, he, hmem, hcase⟩
  · rw [heq]; exact hs
  · rcases hcase with ⟨j, t, hj, htid, _, heq⟩ | ⟨_, _, heq⟩ | ⟨_, _, heq⟩
    · rw [heq]
      have hne : j ≠ i0 := by
        intro hji
        subst hji
        rw [hs] at hj
        cases hj
        rw [htid, isItemMacroId_itemMacroId] at hsyn
        cases hsyn
      show (s.actions.set j _)[i0]? = some a
      rw [List.getElem?_set_ne hne]
      exact hs
    · rw [heq]
      have hne : i ≠ i0 := by
        intro hii
        subst hii
        rw [hs] at he
        cases he
        exact hcand hmem
      show (s.actions.set i _)[i0]? = some a
      rw [List.getElem?_set_ne hne]
      exact hs
    · rw [heq]; exact hs

/-- No action with the id `itemMacro+x` appears for an `x` that is no candidate. -/
theorem groupLoop_no_new_twin (c : Constants) (itemIds : List String) (actions : List Action)
    (replace : Bool) {x : String} (hcand : x ∉ itemIds)
    (hno : itemMacroId x ∉ actionIds actions) :
    itemMacroId x ∉ actionIds (groupLoop c itemIds actions replace).actions ∧
      itemMacroId x ∉ actionIds (groupLoop c itemIds actions replace).staged := by
  unfold groupLoop
  refine foldl_range_induction (groupStep c itemIds)
    (fun (_ : Nat) (s : LoopState) =>
      itemMacroId x ∉ actionIds s.actions ∧ itemMacroId x ∉ actionIds s.staged)
    actions.length ⟨actions, replace, []⟩ ⟨hno, by simp [actionIds]⟩ ?_
  intro i s _ hs
  obtain ⟨hs1, hs2⟩ := hs
  rcases groupStep_cases c itemIds s i with ⟨heq, _⟩ | ⟨e, he, hmem, hcase⟩
  · rw [heq]; exact ⟨hs1, hs2⟩
  · have hxe : itemMacroId x ≠ itemMacroId e.id := by
      intro h
      exact hcand ((itemMacroId_injective h) ▸ hmem)
    rcases hcase with ⟨j, t, hj, htid, _, heq⟩ | ⟨_, _, heq⟩ | ⟨_, _, heq⟩
    · rw [heq]
      refine ⟨?_, hs2⟩
      show itemMacroId x ∉ actionIds (s.actions.set j _)
      rw [actionIds_set_same hj (by simp [htid])]
      exact hs1
    · rw [heq]
      refine ⟨?_, hs2⟩
      intro hin
      obtain ⟨u, hu, huid⟩ := mem_actionIds.mp hin
      rcases List.mem_or_eq_of_mem_set hu with hul | hue
      · exact hs1 (mem_actionIds.mpr ⟨u, hul, huid⟩)
      · subst hue
        exact hxe huid.symm
    · rw [heq]
      refine ⟨hs1, ?_⟩
      intro hin
      obtain ⟨u, hu, huid⟩ := mem_actionIds.mp hin
      rcases List.mem_append.mp hu with hul | hue
      · exact hs2 (mem_actionIds.mpr ⟨u, hul, huid⟩)
      · rw [List.mem_singleton] at hue
        subst hue
        exact hxe huid.symm

theorem mem__addGroupActions (c : Constants) (itemIds : List String) (group : Group)
    (replace : Bool) (u : Action) :
    u ∈ (_addGroupActions c itemIds group replace).actions ↔
      u ∈ (groupLoop c itemIds group.actions replace).actions ∨
        u ∈ (groupLoop c itemIds group.actions replace).staged := by
  rw [_addGroupActions_actions, (_addActions_perm _ _).mem_iff, List.mem_append]
  exact Or.comm

theorem _addGroupActions_untouched (c : Constants) (itemIds : List String) (group : Group)
    (replace : Bool) {a : Action} (ha : a ∈ group.actions)
    (hcand : a.id ∉ itemIds) (hsyn : isItemMacroId a.id = false) :
    a ∈ (_addGroupActions c itemIds group replace).actions := by
  obtain ⟨i0, hi0⟩ := List.mem_iff_getElem?.mp ha
  rw [mem__addGroupActions]
  left
  exact List.mem_iff_getElem?.mpr
    ⟨i0, groupLoop_untouched c itemIds group.actions replace hi0 hcand hsyn⟩

theorem _addGroupActions_no_new_twin (c : Constants) (itemIds : List String) (group : Group)
    (replace : Bool) {x : String} (hcand : x ∉ itemIds)
    (hno : itemMacroId x ∉ actionIds group.actions) :
    itemMacroId x ∉ actionIds (_addGroupActions c itemIds group replace).actions := by
  obtain ⟨h1, h2⟩ := groupLoop_no_new_twin c itemIds group.actions replace hcand hno
  intro hin
  obtain ⟨u, hu, huid⟩ := mem_actionIds.mp hin
  rcases (mem__addGroupActions c itemIds group replace u).mp hu with hul | hus
  · exact h1 (mem_actionIds.mpr ⟨u, hul, huid⟩)
  · exact h2 (mem_actionIds.mpr ⟨u, hus, huid⟩)

/-! ## `indexOf` and `substr` on an encoded value -/

theorem indexOfAux_single (d : Char) (rest : List Char) :
    ∀ (tag : List Char) (i : Nat), d ∉ tag →
      indexOfAux [d] (tag ++ d :: rest) i = ((i + tag.length : Nat) : Int)
  | [], i, _ => by simp [indexOfAux, List.isPrefixOf]
  | x :: xs, i, h => by
    have hx : d ≠ x := fun hdx => h (hdx ▸ List.mem_cons_self _ _)
    have hxs : d ∉ xs := fun hd => h (List.mem_cons_of_mem _ hd)
    have ih := indexOfAux_single d rest xs (i + 1) hxs
    have hstep : indexOfAux [d] ((x :: xs) ++ d :: rest) i =
        indexOfAux [d] (xs ++ d :: rest) (i + 1) := by
      have hb : (d == x) = false := by simpa using hx
      simp [indexOfAux, List.isPrefixOf, hb]
    rw [hstep, ih]
    congr 1
    simp only [List.length_cons]
    omega

theorem jsIndexOf_tag (d : Char) (tag payload : String) (hd : d ∉ tag.data) :
    jsIndexOf (tag ++ String.singleton d ++ payload) (String.singleton d) =
      (tag.data.length : Int) := by
  unfold jsIndexOf
  have h1 : (String.singleton d).data = [d] := rfl
  have h2 : (tag ++ String.singleton d ++ payload).data = tag.data ++ d :: payload.data := by
    simp [String.data_append, h1]
  rw [h1, h2, indexOfAux_single d payload.data tag.data 0 hd]
  simp

theorem jsSubstr_tag (d : Char) (tag payload : String) :
    jsSubstr (tag ++ String.singleton d ++ payload) (tag.data.length : Int) =
      String.singleton d ++ payload := by
  unfold jsSubstr
  have h1 : (String.singleton d).data = [d] := rfl
  have h2 : (tag ++ String.singleton d ++ payload).data = tag.data ++ d :: payload.data := by
    simp [String.data_append, h1]
  apply String.ext
  simp only [h2, String.data_append, h1]
  have hneg : ¬ ((tag.data.length : Int) < 0) := by omega
  simp only [hneg, if_false]
  have hmin : min (tag.data.length : Int) ((tag.data ++ d :: payload.data).length : Int) =
      (tag.data.length : Int) := by
    apply min_eq_left
    simp only [List.length_append, List.length_cons]
    omega
  rw [hmin, Int.toNat_ofNat, List.drop_left]
  rfl

theorem delimiter_single (s : String) (h : s.length = 1) : ∃ d, s = String.singleton d := by
  have hl : s.data.length = 1 := h
  obtain ⟨d, hd⟩ := List.length_eq_one.mp hl
  exact ⟨d, String.ext hd⟩

theorem not_mem_of_not_infix {d : Char} {l : List Char} (h : ¬ [d] <:+: l) : d ∉ l := by
  intro hd
  obtain ⟨s, t, hst⟩ := List.append_of_mem hd
  exact h ⟨s, t, by simp [hst]⟩

/-! ## The column and width arithmetic of the resizer -/

theorem ceilSqrtAux_spec (n : Nat) :
    ∀ (fuel k : Nat), n ≤ k + fuel → (∀ j, j < k → j * j < n) →
      n ≤ ceilSqrtAux n fuel k * ceilSqrtAux n fuel k ∧
        ∀ j, j < ceilSqrtAux n fuel k → j * j < n
  | 0, k, hk, hmin => by
    simp only [ceilSqrtAux]
    refine ⟨?_, hmin⟩
    have hnk : n ≤ k := by omega
    rcases Nat.eq_zero_or_pos k with h0 | hpos
    · subst h0; omega
    · exact le_trans hnk (Nat.le_mul_of_pos_left k hpos)
  | fuel + 1, k, hk, hmin => by
    simp only [ceilSqrtAux]
    by_cases h : n ≤ k * k
    · rw [if_pos h]
      exact ⟨h, hmin⟩
    · rw [if_neg h]
      apply ceilSqrtAux_spec n fuel (k + 1) (by omega)
      intro j hj
      rcases Nat.lt_succ_iff_lt_or_eq.mp hj with hlt | heq
      · exact hmin j hlt
      · subst heq; omega

/-- The value `ceilSqrt n` is the least `k` with `n ≤ k * k`, the ceiling of the square root. -/
theorem ceilSqrt_spec (n : Nat) :
    n ≤ ceilSqrt n * ceilSqrt n ∧ ∀ j, j < ceilSqrt n → j * j < n :=
  ceilSqrtAux_spec n n 0 (by omega) (fun j hj => absurd hj (Nat.not_lt_zero j))

theorem ceilSqrt_le (n : Nat) : ceilSqrt n ≤ n := by
  by_contra h
  have hlt : n < ceilSqrt n := Nat.lt_of_not_le h
  have h1 := (ceilSqrt_spec n).2 n hlt
  rcases Nat.eq_zero_or_pos n with h0 | hpos
  · subst h0; omega
  · have := Nat.le_mul_of_pos_left n hpos
    omega

/-- The column count of the grid never exceeds the number of actions. -/
theorem _resizeGrid_le_actionCount (availableWidth gridWidth actionCount : Nat) :
    _resizeGrid availableWidth gridWidth actionCount ≤ actionCount := by
  unfold _resizeGrid
  have h := ceilSqrt_le actionCount
  simp only
  split_ifs <;> omega

/-- The column count of the grid never exceeds the available columns, except for three actions
in a width of exactly two columns. -/
theorem _resizeGrid_le_availableCols (availableWidth gridWidth actionCount : Nat)
    (h : ¬ (actionCount = 3 ∧ availableWidth / gridWidth = 2)) :
    _resizeGrid availableWidth gridWidth actionCount ≤ availableWidth / gridWidth := by
  unfold _resizeGrid minCols
  simp only
  split_ifs with h1 h2
  · exact le_refl _
  · -- at most three actions
    have h1' : ceilSqrt actionCount ≤ availableWidth / gridWidth := Nat.le_of_not_lt h1
    have hspec := (ceilSqrt_spec actionCount).1
    have hle : actionCount ≤ 3 := h2
    interval_cases actionCount
    · omega
    · have : ceilSqrt 1 = 1 := by decide
      omega
    · have : ceilSqrt 2 = 2 := by decide
      omega
    · have : ceilSqrt 3 = 2 := by decide
      omega
  · exact Nat.le_of_not_lt h1

/-! ## Mode `'both'` on a group without synthetic twins -/

theorem jsFindIndex_absent {p : Action → Bool} {l : List Action} (h : ∀ a ∈ l, p a = false) :
    jsFindIndex p l = -1 := by
  unfold jsFindIndex
  have hnone : l.findIdx? p = none := by
    rw [List.findIdx?_eq_none_iff]
    intro a ha
    simp [h a ha]
  rw [hnone]

/-- Staged clones whose ids occur nowhere in the group are each spliced in at index 0, so they
end up in reverse order in front of the group's actions. -/
theorem _addActions_fresh :
    ∀ (staged l : List Action), (∀ m ∈ staged, m.id ∉ actionIds l) → (actionIds staged).Nodup →
      _addActions staged l = staged.reverse ++ l
  | [], l, _, _ => rfl
  | m :: rest, l, hfresh, hnd => by
    have hm : m.id ∉ actionIds l := hfresh m (List.mem_cons_self _ _)
    have hidx : jsFindIndex (fun action => action.id == m.id) l = -1 := by
      apply jsFindIndex_absent
      intro a ha
      have hne : a.id ≠ m.id := fun h => hm (mem_actionIds.mpr ⟨a, ha, h⟩)
      simpa using hne
    have hsplice : jsSplice l (jsFindIndex (fun action => action.id == m.id) l + 1) m = m :: l := by
      rw [hidx]
      simp [jsSplice]
    have hnd' : (m.id :: actionIds rest).Nodup := hnd
    rw [List.nodup_cons] at hnd'
    have ih := _addActions_fresh rest (m :: l)
      (by
        intro m' hm' hin
        have hin' : m'.id ∈ m.id :: actionIds l := hin
        rcases List.mem_cons.mp hin' with heq | hl
        · exact hnd'.1 (heq ▸ mem_actionIds.mpr ⟨m', hm', rfl⟩)
        · exact hfresh m' (List.mem_cons_of_mem _ hm') hl)
      hnd'.2
    show _addActions rest (jsSplice l (jsFindIndex (fun action => action.id == m.id) l + 1) m) = _
    rw [hsplice, ih]
    simp

theorem groupLoop_both_fresh (c : Constants) (itemIds : List String) (actions : List Action)
    (hfresh : ∀ x ∈ itemIds, itemMacroId x ∉ actionIds actions) :
    groupLoop c itemIds actions false =
      ⟨actions, false,
        (actions.filter (fun a => itemIds.contains a.id)).map
          (fun a => _createItemMacroAction c a a false)⟩ := by
  have key : groupLoop c itemIds actions false =
      ⟨actions, false,
        ((actions.take actions.length).filter (fun a => itemIds.contains a.id)).map
          (fun a => _createItemMacroAction c a a false)⟩ := by
    unfold groupLoop
    refine foldl_range_induction (groupStep c itemIds)
      (fun (i : Nat) (s : LoopState) =>
        s = ⟨actions, false,
          ((actions.take i).filter (fun a => itemIds.contains a.id)).map
            (fun a => _createItemMacroAction c a a false)⟩)
      actions.length ⟨actions, false, []⟩ (by simp) ?_
    intro i s _ hs
    subst hs
    rw [List.take_succ]
    rcases groupStep_cases c itemIds _ i with ⟨heq, hnot⟩ | ⟨e, he, hmem, hcase⟩
    · rw [heq]
      cases hi : actions[i]? with
      | none => simp
      | some e =>
        have hcf : e.id ∉ itemIds := hnot e hi
        simp [List.filter_append, hcf]
    · have hei : actions[i]? = some e := he
      rcases hcase with ⟨j, t, hj, htid, _, _⟩ | ⟨_, hrep, _⟩ | ⟨_, _, heq⟩
      · exact absurd (mem_actionIds.mpr ⟨t, List.mem_iff_getElem?.mpr ⟨j, hj⟩, htid⟩)
          (hfresh e.id hmem)
      · cases hrep
      · rw [heq, hei]
        simp [List.filter_append, hmem]
  rw [List.take_length] at key
  exact key

/-- What mode `'both'` does on a group with unique ids and without synthetic twins: the clones of
the candidate actions stand in reverse order in front of the unchanged original actions. -/
theorem _addGroupActions_both_fresh (c : Constants) (itemIds : List String) (group : Group)
    (hnd : (actionIds group.actions).Nodup)
    (hfresh : ∀ x ∈ itemIds, itemMacroId x ∉ actionIds group.actions) :
    (_addGroupActions c itemIds group false).actions =
      ((group.actions.filter (fun a => itemIds.contains a.id)).map
        (fun a => _createItemMacroAction c a a false)).reverse ++ group.actions := by
  rw [_addGroupActions_actions, groupLoop_both_fresh c itemIds group.actions hfresh]
  apply _addActions_fresh
  · intro m hm hin
    obtain ⟨a, ha, rfl⟩ := List.mem_map.mp hm
    have hcand : a.id ∈ itemIds := by
      have := (List.mem_filter.mp ha).2
      simpa using this
    exact hfresh a.id hcand hin
  · have hsub : ((group.actions.filter (fun a => itemIds.contains a.id)).map
        (fun a => a.id)).Nodup :=
      List.Nodup.sublist ((List.filter_sublist _).map _) hnd
    have hinj : Function.Injective itemMacroId := fun x y h => itemMacroId_injective h
    have := List.Nodup.map hinj hsub
    unfold actionIds
    simpa [List.map_map, Function.comp] using this

/-! ## The extension contract -/

/-- C1 (ordering), evaluated on the code.  For the group `[a]` and the candidate `a` in mode
`'both'`, `_addActions` searches for the id of the staged clone, `itemMacro+a`, and not for the id
of its source; `findIndex` yields `-1`, the splice index is `0`, and the synthetic action lands
before its source instead of right after it.  With two sources the synthetic actions pile up in
reverse order at the front of the list. -/
theorem C1_synthetic_action_spliced_at_front :
    jsFindIndex (fun action => action.id == (sampleMacroAction "a").id) groupA.actions = -1 ∧
      extendGroups sampleConstants ["a"] "both" [groupA] =
        [⟨"g", [sampleMacroAction "a", sampleAction "a"]⟩] ∧
      extendGroups sampleConstants ["a", "b"] "both" [groupAB] =
        [⟨"g", [sampleMacroAction "b", sampleMacroAction "a", sampleAction "a",
          sampleAction "b"]⟩] := by
  decide

/-- C2 (idempotence).  For every group tree whose action ids are unique within each group, every
candidate list without an id that starts with `itemMacro+`, and every setting, a second run of the
extension returns the tree of the first run; in particular each group holds as many actions with an
`itemMacro+` id after the second run as after the first. -/
theorem C2_extension_idempotent (c : Constants) (itemIds : List String) (setting : String)
    (groups : List Group) (hnd : ∀ g ∈ groups, (actionIds g.actions).Nodup)
    (hC : ∀ x ∈ itemIds, isItemMacroId x = false) :
    extendGroups c itemIds setting (extendGroups c itemIds setting groups) =
        extendGroups c itemIds setting groups ∧
      (extendGroups c itemIds setting (extendGroups c itemIds setting groups)).map
          (fun g => (g.actions.filter (fun a => isItemMacroId a.id)).length) =
        (extendGroups c itemIds setting groups).map
          (fun g => (g.actions.filter (fun a => isItemMacroId a.id)).length) := by
  have hmain : extendGroups c itemIds setting (extendGroups c itemIds setting groups) =
      extendGroups c itemIds setting groups := by
    unfold extendGroups
    by_cases h1 : itemIds.length = 0
    · simp [h1]
    · by_cases h2 : setting = "original"
      · simp [h1, h2]
      · simp only [h1, h2, if_false, List.map_map]
        apply List.map_congr_left
        intro g hg
        exact _addGroupActions_idem c itemIds hC g _ (hnd g hg)
  exact ⟨hmain, by rw [hmain]⟩

theorem C2_extension_idempotent_witness :
    (∀ g ∈ [groupAB], (actionIds g.actions).Nodup) ∧
      (∀ x ∈ ["a"], isItemMacroId x = false) ∧
      extendGroups sampleConstants ["a"] "both"
          (extendGroups sampleConstants ["a"] "both" [groupAB]) =
        extendGroups sampleConstants ["a"] "both" [groupAB] :=
  ⟨by decide, by decide,
    (C2_extension_idempotent sampleConstants ["a"] "both" [groupAB] (by decide) (by decide)).1⟩

/-- C3 (uniqueness).  For every group of the tree in which no two actions share an id, every
candidate list and every setting, no two actions of that group share an id after the extension. -/
theorem C3_ids_unique_after_extension (c : Constants) (itemIds : List String) (setting : String)
    (groups : List Group) (k : Nat) (g : Group) (hg : groups[k]? = some g)
    (hnd : (actionIds g.actions).Nodup) :
    ∃ g', (extendGroups c itemIds setting groups)[k]? = some g' ∧
      (actionIds g'.actions).Nodup := by
  rw [extendGroups_getElem?, hg]
  refine ⟨_, rfl, ?_⟩
  simp only
  split_ifs
  · exact hnd
  · exact hnd
  · exact _addGroupActions_nodup c itemIds g _ hnd

theorem C3_ids_unique_after_extension_witness :
    [groupTwinThenB][0]? = some groupTwinThenB ∧ (actionIds groupTwinThenB.actions).Nodup ∧
      ∃ g', (extendGroups sampleConstants ["a", "b"] "both" [groupTwinThenB])[0]? = some g' ∧
        (actionIds g'.actions).Nodup :=
  ⟨rfl, by decide,
    C3_ids_unique_after_extension sampleConstants ["a", "b"] "both" [groupTwinThenB] 0
      groupTwinThenB rfl (by decide)⟩

/-- C4 (mode `'both'` keeps both), evaluated on the code.  In the group `[a, itemMacro+a, b]` with
the candidates `a` and `b`, the twin of `a` sets the captured variable `replace` to `true`, and the
variable stays `true` for the rest of the `forEach`: the action `b`, which has no twin, is
overwritten in place, so that no action with the id `b` remains. -/
theorem C4_replace_flag_leaks_to_later_actions :
    (actionIds groupTwinThenB.actions).Nodup ∧
      extendGroups sampleConstants ["a", "b"] "both" [groupTwinThenB] =
        [⟨"g", [sampleAction "a", sampleMacroAction "a", sampleMacroAction "b"]⟩] ∧
      "b" ∉ actionIds (_addGroupActions sampleConstants ["a", "b"] groupTwinThenB false).actions := by
  decide

/-- C5 as stated fails on a group that already holds a synthetic twin.  In the group
`[a, itemMacro+a]`, whose ids are unique, mode `'itemMacro'` refreshes the twin and keeps the
source: after the extension the action with the candidate id `a` still stands next to the action
with the id `itemMacro+a`. -/
theorem C5_source_kept_beside_existing_twin :
    (actionIds groupWithTwin.actions).Nodup ∧
      extendGroups sampleConstants ["a"] "itemMacro" [groupWithTwin] = [groupWithTwin] ∧
      "a" ∈ actionIds (_addGroupActions sampleConstants ["a"] groupWithTwin true).actions ∧
      itemMacroId "a" ∈
        actionIds (_addGroupActions sampleConstants ["a"] groupWithTwin true).actions := by
  decide

theorem map_replaceCandidate_not_both (c : Constants) (itemIds : List String) (l : List Action)
    (hfresh : ∀ x ∈ itemIds, itemMacroId x ∉ actionIds l) :
    ∀ x ∈ itemIds, ¬ (x ∈ actionIds (l.map (replaceCandidate c itemIds)) ∧
      itemMacroId x ∈ actionIds (l.map (replaceCandidate c itemIds))) := by
  intro x hx hboth
  obtain ⟨h1, h2⟩ := hboth
  obtain ⟨b', hb', hb'id⟩ := mem_actionIds.mp h1
  obtain ⟨d', hd', hd'id⟩ := mem_actionIds.mp h2
  obtain ⟨b, hb, rfl⟩ := List.mem_map.mp hb'
  obtain ⟨d, hd, rfl⟩ := List.mem_map.mp hd'
  by_cases hdc : d.id ∈ itemIds
  · simp only [replaceCandidate, hdc, if_true, _createItemMacroAction_id] at hd'id
    have hdx : d.id = x := itemMacroId_injective hd'id
    by_cases hbc : b.id ∈ itemIds
    · simp only [replaceCandidate, hbc, if_true, _createItemMacroAction_id] at hb'id
      exact hfresh b.id hbc (mem_actionIds.mpr ⟨d, hd, hdx.trans hb'id.symm⟩)
    · simp only [replaceCandidate, hbc, if_false] at hb'id
      exact hbc (hb'id ▸ hx)
  · simp only [replaceCandidate, hdc, if_false] at hd'id
    exact hfresh x hx (mem_actionIds.mpr ⟨d, hd, hd'id⟩)

/-- C5 (mode `'itemMacro'` replaces), amended by the premise that the group does not yet hold an
action with the id `itemMacro+x` for a candidate `x`.  For every such group with unique ids, after
the extension in mode `'itemMacro'` the group has as many actions as before, for no candidate `x`
it holds both an action with the id `x` and one with the id `itemMacro+x`, the replacement of a
candidate action stands in the slot of its source with the id `itemMacro+x` and the list name
`Item Macro: ` followed by the full name of the source, and every action whose id is no candidate
is unchanged in its slot. -/
theorem C5_itemMacro_mode_replaces (c : Constants) (itemIds : List String) (groups : List Group)
    (k : Nat) (g : Group) (hg : groups[k]? = some g) (hnd : (actionIds g.actions).Nodup)
    (hfresh : ∀ x ∈ itemIds, itemMacroId x ∉ actionIds g.actions) :
    ∃ g', (extendGroups c itemIds "itemMacro" groups)[k]? = some g' ∧
      g'.actions.length = g.actions.length ∧
      (∀ x ∈ itemIds, ¬ (x ∈ actionIds g'.actions ∧ itemMacroId x ∈ actionIds g'.actions)) ∧
      (∀ (i : Nat) (a : Action), g.actions[i]? = some a → a.id ∈ itemIds →
        ∃ a' : Action, g'.actions[i]? = some a' ∧ a'.id = "itemMacro+" ++ a.id ∧
          a'.listName = "Item Macro: " ++ a.fullName) ∧
      (∀ (i : Nat) (a : Action), g.actions[i]? = some a → a.id ∉ itemIds → g'.actions[i]? = some a) := by
  rw [extendGroups_getElem?, hg]
  refine ⟨_, rfl, ?_⟩
  have hact : (if itemIds.length = 0 then g
      else if "itemMacro" = "original" then g
      else _addGroupActions c itemIds g ("itemMacro" == "itemMacro")).actions =
      g.actions.map (replaceCandidate c itemIds) := by
    by_cases h1 : itemIds.length = 0
    · have hnil : itemIds = [] := List.length_eq_zero.mp h1
      simp only [h1, if_true]
      subst hnil
      have : replaceCandidate c [] = id := by
        funext a; simp [replaceCandidate]
      rw [this, List.map_id]
    · have h2 : ¬ ("itemMacro" = "original") := by decide
      have h3 : ("itemMacro" == "itemMacro") = true := by decide
      simp only [h1, h2, if_false, h3]
      exact _addGroupActions_replace c itemIds g hnd hfresh
  simp only
  rw [hact]
  refine ⟨by simp, map_replaceCandidate_not_both c itemIds g.actions hfresh, ?_, ?_⟩
  · intro i a hi hcand
    refine ⟨_createItemMacroAction c a a true, ?_, rfl, rfl⟩
    simp [List.getElem?_map, hi, replaceCandidate, hcand]
  · intro i a hi hcand
    simp [List.getElem?_map, hi, replaceCandidate, hcand]

theorem C5_itemMacro_mode_replaces_witness :
    candidateItemIds false actorAB = ["a"] ∧
      (extendActionList sampleConstants false "itemMacro" ⟨some actorAB, [groupAB]⟩).groups =
        [⟨"g", [sampleMacroAction "a", sampleAction "b"]⟩] ∧
      ∃ g', (extendGroups sampleConstants ["a"] "itemMacro" [groupAB])[0]? = some g' ∧
        g'.actions.length = groupAB.actions.length ∧
        (∀ x ∈ ["a"], ¬ (x ∈ actionIds g'.actions ∧ itemMacroId x ∈ actionIds g'.actions)) ∧
        (∀ (i : Nat) (a : Action), groupAB.actions[i]? = some a → a.id ∈ ["a"] →
          ∃ a' : Action, g'.actions[i]? = some a' ∧ a'.id = "itemMacro+" ++ a.id ∧
            a'.listName = "Item Macro: " ++ a.fullName) ∧
        (∀ (i : Nat) (a : Action), groupAB.actions[i]? = some a → a.id ∉ ["a"] → g'.actions[i]? = some a) :=
  ⟨by decide, by decide,
    C5_itemMacro_mode_replaces sampleConstants ["a"] [groupAB] 0 groupAB rfl (by decide)
      (by decide)⟩

/-- C6 (grid column bound), evaluated on the code.  With three actions, `gridWidth = 100` and
`availableWidth = 200` the available columns are `floor(200 / 100) = 2` and
`squaredCols = ceil(sqrt(3)) = 2` does not exceed them, so the cap is skipped and the `minCols`
branch yields `cols = 3`, more than the available columns.  The scenario of the specification,
`availableWidth = 1000` with nine actions, yields `cols = 3`. -/
theorem C6_three_actions_in_two_available_columns :
    ceilSqrt 3 = 2 ∧ 200 / 100 = 2 ∧ _resizeGrid 200 100 3 = 3 ∧
      ¬ (_resizeGrid 200 100 3 ≤ 200 / 100) ∧ _resizeGrid 1000 100 9 = 3 := by
  decide

/-! ## The flow width -/

theorem ceilSqrt_six : ceilSqrt 6 = 3 := by decide

/-- Six actions are laid out in five columns, whatever the available columns are. -/
theorem flowCols_six (ops : NumberOps) (availableWidth medianWidthPerAction : ℚ) :
    flowCols ops availableWidth medianWidthPerAction 6 = 5 := by
  simp [flowCols, ceilSqrt_six]

theorem groupWidthLoop_sample : groupWidthLoop exactOps 10 sampleRects 0 0 = 330 := by
  simp only [sampleRects, groupWidthLoop, exactOps]
  norm_num

theorem measureActions_sample : measureActions exactOps 10 5 sampleRects = (6, 360) := by
  have hlen : sampleRects.length = 6 := rfl
  simp only [measureActions, groupWidthLoop_sample, hlen]
  simp only [exactOps]
  norm_num

theorem exactOps_div_sample : exactOps.div 360 6 = 60 := by
  simp only [exactOps]
  norm_num

/-- The widths of the two scenarios do not depend on the rounding of the quotient
`availableWidth / medianWidthPerAction`: they need the product `60 * 5` alone, which is exact in
doubles. -/
theorem flowWidth_six_of_mul (ops : NumberOps) (hmul : ops.mul 60 5 = 300) :
    flowWidth ops 250 60 6 = 250 ∧ flowWidth ops 150 60 6 = 200 := by
  have hcast : ops.mul 60 ((5 : Int) : ℚ) = 300 := by
    rw [← hmul]; norm_num
  constructor
  · simp only [flowWidth, flowCols_six, hcast]
    norm_num
  · simp only [flowWidth, flowCols_six, hcast]
    norm_num

theorem exactOps_mul_sample : exactOps.mul 60 5 = 300 := by
  simp only [exactOps]
  norm_num

theorem flowWidth_scenario : flowWidth exactOps 250 60 6 = 250 :=
  (flowWidth_six_of_mul exactOps exactOps_mul_sample).1

theorem flowWidth_narrow : flowWidth exactOps 150 60 6 = 200 :=
  (flowWidth_six_of_mul exactOps exactOps_mul_sample).2

theorem _resize_scenario : _resize exactOps false 250 10 5 sampleRects = some 250 := by
  simp only [_resize, measureActions_sample]
  simp [exactOps_div_sample, flowWidth_scenario]

/-- Without a counted action the width is not a number. -/
theorem _resize_no_actions (ops : NumberOps)
    (availableWidth groupsElementRectLeft groupsElementPadding : ℚ) :
    _resize ops false availableWidth groupsElementRectLeft groupsElementPadding [] = none := by
  simp [_resize, measureActions]

/-- C7 as stated fails below 200 pixels.  Six actions that measure `medianWidthPerAction = 60`
in an available width of 150: the floor of 200 pixels is applied after the cap, so the width is
200, more than the available width; in custom-width mode the width is the custom width 150,
less than 200. -/
theorem C7_width_outside_interval_below_200 :
    measureActions exactOps 10 5 sampleRects = (6, 360) ∧
      _resize exactOps false 150 10 5 sampleRects = some 200 ∧ ¬ ((200 : ℚ) ≤ 150) ∧
      _resize exactOps true 150 10 5 sampleRects = some 150 ∧ ¬ ((200 : ℚ) ≤ 150) := by
  refine ⟨measureActions_sample, ?_, by norm_num, ?_, by norm_num⟩
  · simp only [_resize, measureActions_sample]
    simp [exactOps_div_sample, flowWidth_narrow]
  · simp [_resize]

/-- C7 (flow width clamp), amended.  For every available width, every positive
`medianWidthPerAction` and every action count of at least one, whatever the rounding of the
arithmetic, the width that `_resize` applies in adaptive mode is at least 200 and at most the
larger of 200 and `availableWidth`, hence within `[200, availableWidth]` whenever
`availableWidth` is at least 200; it is the width written for every measurement with that count
and that quotient.  In custom-width mode the width is `availableWidth` itself. -/
theorem C7_flow_width_clamp (ops : NumberOps) (availableWidth medianWidthPerAction : ℚ)
    (maxActions : Nat) (_hmedian : 0 < medianWidthPerAction) (hactions : 1 ≤ maxActions) :
    200 ≤ flowWidth ops availableWidth medianWidthPerAction maxActions ∧
      flowWidth ops availableWidth medianWidthPerAction maxActions ≤ max 200 availableWidth ∧
      (200 ≤ availableWidth →
        flowWidth ops availableWidth medianWidthPerAction maxActions ≤ availableWidth) ∧
      (∀ (groupsElementRectLeft groupsElementPadding : ℚ) (actions : List ActionRect),
        (measureActions ops groupsElementRectLeft groupsElementPadding actions).1 = maxActions →
        ops.div (measureActions ops groupsElementRectLeft groupsElementPadding actions).2
          maxActions = medianWidthPerAction →
        _resize ops false availableWidth groupsElementRectLeft groupsElementPadding actions =
          some (flowWidth ops availableWidth medianWidthPerAction maxActions)) ∧
      (∀ (groupsElementRectLeft groupsElementPadding : ℚ) (actions : List ActionRect),
        _resize ops true availableWidth groupsElementRectLeft groupsElementPadding actions =
          some availableWidth) := by
  have hmax1 : (200 : ℚ) ≤ max 200 availableWidth := le_max_left _ _
  have hmax2 : availableWidth ≤ max 200 availableWidth := le_max_right _ _
  refine ⟨?_, ?_, ?_, ?_, ?_⟩
  · simp only [flowWidth]
    split_ifs <;> linarith
  · simp only [flowWidth]
    split_ifs <;> linarith
  · intro h200
    simp only [flowWidth]
    split_ifs <;> linarith
  · intro groupsElementRectLeft groupsElementPadding actions hcount hquot
    have hne : ¬ ((measureActions ops groupsElementRectLeft groupsElementPadding actions).1 = 0) := by
      rw [hcount]; omega
    simp only [_resize, Bool.false_eq_true, if_false, hne]
    rw [hcount, hquot]
  · intro groupsElementRectLeft groupsElementPadding actions
    simp [_resize]

theorem C7_flow_width_clamp_witness :
    (0 : ℚ) < 60 ∧ 1 ≤ 6 ∧ (200 : ℚ) ≤ 250 ∧
      flowCols exactOps 250 60 6 = 5 ∧ flowWidth exactOps 250 60 6 = 250 ∧
      _resize exactOps false 250 10 5 sampleRects = some (flowWidth exactOps 250 60 6) ∧
      200 ≤ flowWidth exactOps 250 60 6 ∧ flowWidth exactOps 250 60 6 ≤ 250 :=
  ⟨by norm_num, by norm_num, by norm_num, flowCols_six exactOps 250 60, flowWidth_scenario,
    (C7_flow_width_clamp exactOps 250 60 6 (by norm_num) (by norm_num)).2.2.2.1 10 5 sampleRects
      (by rw [measureActions_sample]) (by rw [measureActions_sample]; exact exactOps_div_sample),
    (C7_flow_width_clamp exactOps 250 60 6 (by norm_num) (by norm_num)).1,
    (C7_flow_width_clamp exactOps 250 60 6 (by norm_num) (by norm_num)).2.2.1 (by norm_num)⟩

/-! ## The encoded value -/

/-- C8 (payload preservation).  For a one-character `DELIMITER` and every source action whose
encoded value is `tag + DELIMITER + payload` with no `DELIMITER` in `tag`, the encoded value that
`_createItemMacroAction` writes is `itemMacro + DELIMITER + payload`, whichever object is written
and in either mode. -/
theorem C8_payload_preserved (c : Constants) (existingAction actionToReplace : Action)
    (replace : Bool) (tag payload : String) (hlen : c.DELIMITER.length = 1)
    (htag : ¬ c.DELIMITER.data <:+: tag.data)
    (henc : existingAction.encodedValue = tag ++ c.DELIMITER ++ payload) :
    (_createItemMacroAction c existingAction actionToReplace replace).encodedValue =
      "itemMacro" ++ c.DELIMITER ++ payload := by
  obtain ⟨d, hd⟩ := delimiter_single c.DELIMITER hlen
  have hdtag : d ∉ tag.data := by
    apply not_mem_of_not_infix
    rw [hd] at htag
    exact htag
  show "itemMacro" ++ jsSubstr existingAction.encodedValue
      (jsIndexOf existingAction.encodedValue c.DELIMITER) = "itemMacro" ++ c.DELIMITER ++ payload
  rw [henc, hd, jsIndexOf_tag d tag payload hdtag, jsSubstr_tag, String.append_assoc]

theorem C8_payload_preserved_witness :
    sampleConstants.DELIMITER.length = 1 ∧ ¬ sampleConstants.DELIMITER.data <:+: "item".data ∧
      (sampleAction "a").encodedValue = "item" ++ sampleConstants.DELIMITER ++ "token|a" ∧
      (_createItemMacroAction sampleConstants (sampleAction "a") (sampleAction "a")
        false).encodedValue = "itemMacro" ++ sampleConstants.DELIMITER ++ "token|a" :=
  ⟨by decide, by decide, by decide,
    C8_payload_preserved sampleConstants (sampleAction "a") (sampleAction "a") false "item"
      "token|a" (by decide) (by decide) (by decide)⟩

/-! ## Mode gating and candidate selection -/

/-- C9 (mode `'original'` is a no-op).  For every handler, with or without an actor, every item
list and every group tree, `extendActionList` with the setting `'original'` returns the handler
unchanged: every group keeps its action list, with the same actions in the same order. -/
theorem C9_original_mode_is_noop (c : Constants) (midiQolActive : Bool) (h : ActionHandler) :
    extendActionList c midiQolActive "original" h = h := by
  have hg : ∀ itemIds : List String, extendGroups c itemIds "original" h.groups = h.groups := by
    intro itemIds
    unfold extendGroups
    by_cases h1 : itemIds.length = 0
    · rw [if_pos h1]
    · rw [if_neg h1, if_pos rfl]
  cases h with
  | mk actor groups =>
    cases actor with
    | none => rfl
    | some actor =>
      show ActionHandler.mk (some actor) (extendGroups c _ "original" groups) = _
      rw [hg]

theorem truthy_macroCommand (item : Item) : truthy item.macroCommand = hasMacroCommand item := by
  unfold truthy hasMacroCommand
  cases item.macroCommand with
  | none => rfl
  | some s => by_cases h : s = "" <;> simp [h]

theorem truthy_onUseMacroName (item : Item) :
    truthy item.onUseMacroName = hasCompanionOverride item := by
  unfold truthy hasCompanionOverride
  cases item.onUseMacroName with
  | none => rfl
  | some s => by_cases h : s = "" <;> simp [h]

theorem candidateItemIds_eq_spec (midiQolActive : Bool) (actor : Actor) :
    candidateItemIds midiQolActive actor = specCandidateItemIds midiQolActive actor.items := by
  unfold candidateItemIds specCandidateItemIds
  cases midiQolActive with
  | true =>
    simp only [if_true, List.filter_filter]
    congr 1
    apply List.filter_congr
    intro item _
    rw [truthy_macroCommand, _isUnsupportedByMidiQoL, truthy_onUseMacroName, Bool.and_comm]
  | false =>
    simp only [Bool.false_eq_true, if_false]
    congr 1
    apply List.filter_congr
    intro item _
    rw [truthy_macroCommand]

theorem override_not_candidate (actor : Actor) (item : Item) (hitem : item ∈ actor.items)
    (hover : hasCompanionOverride item = true)
    (hids : (actor.items.map (fun it => it.id)).Nodup) :
    item.id ∉ candidateItemIds true actor := by
  rw [candidateItemIds_eq_spec]
  unfold specCandidateItemIds
  simp only [if_true]
  intro hin
  obtain ⟨other, hother, hid⟩ := List.mem_map.mp hin
  obtain ⟨hmem, hp⟩ := List.mem_filter.mp hother
  have heq : other = item := List.inj_on_of_nodup_map hids hmem hitem hid
  rw [heq, hover] at hp
  simp at hp

/-- C10 (companion-module filtering).  The candidate ids that `extendActionList` hands to the
groups are, with midi-qol active, the ids of the items with a non-empty macro command and without
a companion override and, with midi-qol inactive, the ids of all items with a non-empty macro
command.  Hence, with midi-qol active, item ids unique within the actor and distinct from
synthetic ids, an action of an item with a companion override is still in its group after the
extension, unchanged, and its group gains no action with the id `itemMacro+` of that action. -/
theorem C10_companion_filtering (c : Constants) (setting : String) (handler : ActionHandler)
    (actor : Actor) (hactor : handler.actor = some actor) :
    candidateItemIds true actor = specCandidateItemIds true actor.items ∧
      candidateItemIds false actor = specCandidateItemIds false actor.items ∧
      (∀ midiQolActive : Bool,
        (extendActionList c midiQolActive setting handler).groups =
          extendGroups c (specCandidateItemIds midiQolActive actor.items) setting
            handler.groups) ∧
      (∀ item ∈ actor.items, hasCompanionOverride item = true →
        (actor.items.map (fun it => it.id)).Nodup → isItemMacroId item.id = false →
        ∀ (k : Nat) (g : Group) (a : Action), handler.groups[k]? = some g → a ∈ g.actions →
          a.id = item.id →
          ∃ g', (extendActionList c true setting handler).groups[k]? = some g' ∧
            a ∈ g'.actions ∧
            (itemMacroId a.id ∉ actionIds g.actions →
              itemMacroId a.id ∉ actionIds g'.actions)) := by
  have hgroups : ∀ midiQolActive : Bool,
      (extendActionList c midiQolActive setting handler).groups =
        extendGroups c (specCandidateItemIds midiQolActive actor.items) setting
          handler.groups := by
    intro midiQolActive
    unfold extendActionList
    rw [hactor, ← candidateItemIds_eq_spec]
  refine ⟨candidateItemIds_eq_spec true actor, candidateItemIds_eq_spec false actor, hgroups, ?_⟩
  intro item hitem hover hids hsyn k g a hg ha haid
  have hcand : a.id ∉ specCandidateItemIds true actor.items := by
    rw [haid, ← candidateItemIds_eq_spec]
    exact override_not_candidate actor item hitem hover hids
  have hsyn' : isItemMacroId a.id = false := by rw [haid]; exact hsyn
  rw [hgroups true, extendGroups_getElem?, hg]
  refine ⟨_, rfl, ?_⟩
  simp only
  split_ifs
  · exact ⟨ha, fun h => h⟩
  · exact ⟨ha, fun h => h⟩
  · exact ⟨_addGroupActions_untouched c _ g _ ha hcand hsyn',
      _addGroupActions_no_new_twin c _ g _ hcand⟩

theorem C10_companion_filtering_witness :
    candidateItemIds true actorOverride = ["a"] ∧
      candidateItemIds false actorOverride = ["a", "b"] ∧
      (extendActionList sampleConstants true "both" ⟨some actorOverride, [groupAB]⟩).groups =
        [⟨"g", [sampleMacroAction "a", sampleAction "a", sampleAction "b"]⟩] ∧
      hasCompanionOverride ⟨"b", some "game.macro()", some "ItemMacro"⟩ = true ∧
      (actorOverride.items.map (fun it => it.id)).Nodup ∧
      ∃ g', (extendActionList sampleConstants true "both"
          ⟨some actorOverride, [groupAB]⟩).groups[0]? = some g' ∧
        sampleAction "b" ∈ g'.actions ∧ itemMacroId "b" ∉ actionIds g'.actions := by
  refine ⟨by decide, by decide, by decide, by decide, by decide, ?_⟩
  obtain ⟨g', h1, h2, h3⟩ :=
    (C10_companion_filtering sampleConstants "both" ⟨some actorOverride, [groupAB]⟩
      actorOverride rfl).2.2.2 ⟨"b", some "game.macro()", some "ItemMacro"⟩ (by decide)
      (by decide) (by decide) (by decide) 0 groupAB (sampleAction "b") rfl (by decide) rfl
  exact ⟨g', h1, h2, h3 (by decide)⟩

/-! ## The grid width -/

theorem gridWidthStep_eq_max (medianWidth : Int) (w : ActionWidth) :
    gridWidthStep medianWidth w = max medianWidth (requiredWidth w) := by
  unfold gridWidthStep requiredWidth minActionButtonTextWidth
  simp only
  split_ifs with h
  · rw [max_eq_right (by omega)]
    omega
  · rw [max_eq_left (by omega)]

theorem foldr_max_start (x m : Int) :
    ∀ l : List Int, l.foldr max (max m x) = max x (l.foldr max m)
  | [] => by simp [max_comm]
  | _ :: l => by
    simp only [List.foldr_cons]
    rw [foldr_max_start x m l, max_left_comm]

theorem _getGridWidth_eq_spec :
    ∀ (l : List ActionWidth) (m : Int), _getGridWidth m l = specGridWidth m l
  | [], _ => rfl
  | w :: l, m => by
    have ih := _getGridWidth_eq_spec l (gridWidthStep m w)
    unfold _getGridWidth specGridWidth at *
    simp only [List.foldl_cons, List.map_cons, List.foldr_cons]
    rw [ih, gridWidthStep_eq_max, foldr_max_start]

theorem le_foldr_max_start (m : Int) : ∀ l : List Int, m ≤ l.foldr max m
  | [] => le_refl m
  | _ :: l => le_trans (le_foldr_max_start m l) (le_max_right _ _)

theorem le_foldr_max_of_mem (m : Int) :
    ∀ (l : List Int) (x : Int), x ∈ l → x ≤ l.foldr max m
  | [], x, h => by simp at h
  | y :: l, x, h => by
    rcases List.mem_cons.mp h with heq | hin
    · rw [heq]; exact le_max_left _ _
    · exact le_trans (le_foldr_max_of_mem m l x hin) (le_max_right _ _)

theorem foldr_max_attained (m : Int) :
    ∀ l : List Int, l.foldr max m = m ∨ l.foldr max m ∈ l
  | [] => Or.inl rfl
  | y :: l => by
    simp only [List.foldr_cons]
    rcases max_choice y (l.foldr max m) with h | h
    · right; rw [h]; exact List.mem_cons_self _ _
    · rw [h]
      rcases foldr_max_attained m l with h1 | h1
      · left; exact h1
      · right; exact List.mem_cons_of_mem _ h1

/-- C11 (grid width label guarantee).  For every list of measured widths and every starting width
`m0`, the grid width that the adjustment loop of `_getGridWidth` produces leaves at least 30
pixels of label space for every action, is never below `m0`, and is widened just enough: it is
the maximum of `m0` and of `actionWidth - labelWidth + 30` over all actions, so it is `m0` itself
or the required width of one of the actions. -/
theorem C11_grid_width_label_space (m0 : Int) (actionWidths : List ActionWidth) :
    (∀ w ∈ actionWidths,
        30 ≤ _getGridWidth m0 actionWidths - (w.actionWidth - w.actionButtonTextWidth)) ∧
      m0 ≤ _getGridWidth m0 actionWidths ∧
      _getGridWidth m0 actionWidths = specGridWidth m0 actionWidths ∧
      (_getGridWidth m0 actionWidths = m0 ∨
        ∃ w ∈ actionWidths,
          _getGridWidth m0 actionWidths = w.actionWidth - w.actionButtonTextWidth + 30) := by
  rw [_getGridWidth_eq_spec]
  refine ⟨?_, le_foldr_max_start m0 _, rfl, ?_⟩
  · intro w hw
    have h := le_foldr_max_of_mem m0 (actionWidths.map requiredWidth) (requiredWidth w)
      (List.mem_map_of_mem _ hw)
    have hreq : requiredWidth w = w.actionWidth - w.actionButtonTextWidth + 30 := rfl
    rw [hreq] at h
    unfold specGridWidth
    omega
  · rcases foldr_max_attained m0 (actionWidths.map requiredWidth) with h | h
    · left; exact h
    · right
      obtain ⟨w, hw, hwe⟩ := List.mem_map.mp h
      exact ⟨w, hw, hwe.symm⟩

theorem C11_grid_width_label_space_witness :
    _getGridWidth 100 sampleWidths = 130 ∧ (⟨140, 40⟩ : ActionWidth) ∈ sampleWidths ∧
      (30 : Int) ≤ _getGridWidth 100 sampleWidths - (140 - 40) ∧
      (100 : Int) ≤ _getGridWidth 100 sampleWidths :=
  ⟨by decide, by decide,
    (C11_grid_width_label_space 100 sampleWidths).1 ⟨140, 40⟩ (by decide),
    (C11_grid_width_label_space 100 sampleWidths).2.1⟩

/-! ## The original actions keep their slots and their order -/

theorem _createItemMacroAction_collapse (c : Constants) (e e' a : Action) :
    _createItemMacroAction c e (_createItemMacroAction c e' a true) true =
      _createItemMacroAction c e a true := rfl

theorem jsSplice_sublist (l : List Action) (index : Int) (x : Action) :
    l.Sublist (jsSplice l index x) := by
  unfold jsSplice
  have h : (l.take index.toNat ++ l.drop index.toNat).Sublist
      (l.take index.toNat ++ x :: l.drop index.toNat) :=
    List.Sublist.append (List.Sublist.refl _) (List.sublist_cons_self x _)
  rwa [List.take_append_drop] at h

theorem _addActions_sublist :
    ∀ (staged l : List Action), l.Sublist (_addActions staged l)
  | [], l => List.Sublist.refl l
  | m :: rest, l =>
    (jsSplice_sublist l (jsFindIndex (fun action => action.id == m.id) l + 1) m).trans
      (_addActions_sublist rest _)

/-- After the loop every slot holds its original action, unchanged or rewritten in place from a
candidate action that has the id of the original or whose synthetic id is the id of the
original; every staged action is the clone of a candidate action that has the id of an original
action.  Before slot `i` is visited, the slots from `i` on still hold their original ids. -/
theorem groupLoop_slots (c : Constants) (itemIds : List String) (actions : List Action)
    (replace : Bool) :
    (groupLoop c itemIds actions replace).actions.length = actions.length ∧
      (∀ m ∈ (groupLoop c itemIds actions replace).staged,
        ∃ e : Action, e.id ∈ itemIds ∧ m = _createItemMacroAction c e e false ∧
          e.id ∈ actionIds actions) ∧
      (∀ (n : Nat) (a : Action), actions[n]? = some a →
        ∃ b : Action, (groupLoop c itemIds actions replace).actions[n]? = some b ∧
          (b = a ∨ ∃ e : Action, e.id ∈ itemIds ∧ (e.id = a.id ∨ itemMacroId e.id = a.id) ∧
            b = _createItemMacroAction c e a true)) := by
  have key : (groupLoop c itemIds actions replace).actions.length = actions.length ∧
      (∀ m ∈ (groupLoop c itemIds actions replace).staged,
        ∃ e : Action, e.id ∈ itemIds ∧ m = _createItemMacroAction c e e false ∧
          e.id ∈ actionIds actions) ∧
      (∀ (n : Nat) (a : Action), actions[n]? = some a →
        ∃ b : Action, (groupLoop c itemIds actions replace).actions[n]? = some b ∧
          (b = a ∨ ∃ e : Action, e.id ∈ itemIds ∧ (e.id = a.id ∨ itemMacroId e.id = a.id) ∧
            b = _createItemMacroAction c e a true) ∧
          (actions.length ≤ n → b.id = a.id)) := by
    unfold groupLoop
    refine foldl_range_induction (groupStep c itemIds)
      (fun (i : Nat) (s : LoopState) =>
        s.actions.length = actions.length ∧
          (∀ m ∈ s.staged,
            ∃ e : Action, e.id ∈ itemIds ∧ m = _createItemMacroAction c e e false ∧
              e.id ∈ actionIds actions) ∧
          (∀ (n : Nat) (a : Action), actions[n]? = some a →
            ∃ b : Action, s.actions[n]? = some b ∧
              (b = a ∨ ∃ e : Action, e.id ∈ itemIds ∧
                (e.id = a.id ∨ itemMacroId e.id = a.id) ∧
                b = _createItemMacroAction c e a true) ∧
              (i ≤ n → b.id = a.id)))
      actions.length ⟨actions, replace, []⟩ ?_ ?_
    · exact ⟨rfl, by simp, fun n a ha => ⟨a, ha, Or.inl rfl, fun _ => rfl⟩⟩
    · intro i s _ hs
      obtain ⟨hlen, hst, hslot⟩ := hs
      refine ⟨by rw [groupStep_length]; exact hlen, ?_⟩
      rcases groupStep_cases c itemIds s i with ⟨heq, _⟩ | ⟨e, he, hmem, hcase⟩
      · rw [heq]
        refine ⟨hst, ?_⟩
        intro n a ha
        obtain ⟨b, hb, hrel, hid⟩ := hslot n a ha
        exact ⟨b, hb, hrel, fun hn => hid (by omega)⟩
      · rcases hcase with ⟨j, t, hj, htid, _, heq⟩ | ⟨_, _, heq⟩ | ⟨_, _, heq⟩
        · -- the twin in slot `j` is rewritten from the source `e`; its id stays
          rw [heq]
          refine ⟨hst, ?_⟩
          intro n a ha
          obtain ⟨b, hb, hrel, hid⟩ := hslot n a ha
          have hjlt : j < s.actions.length := (List.getElem?_eq_some.mp hj).1
          by_cases hnj : j = n
          · subst hnj
            rw [hj] at hb
            cases hb
            refine ⟨_, List.getElem?_set_self hjlt, Or.inr ⟨e, hmem, ?_, ?_⟩, ?_⟩
            · rcases hrel with hba | ⟨e', _, hdisj, hbe⟩
              · right
                rw [← htid, hba]
              · have hee : e'.id = e.id := by
                  apply itemMacroId_injective
                  rw [← htid, hbe]
                  rfl
                rw [← hee]
                exact hdisj
            · rcases hrel with hba | ⟨e', _, _, hbe⟩
              · rw [hba]
              · rw [hbe, _createItemMacroAction_collapse]
            · intro hn
              have := hid (by omega)
              rw [_createItemMacroAction_id, ← htid]
              exact this
          · exact ⟨b, by rw [List.getElem?_set_ne hnj]; exact hb, hrel,
              fun hn => hid (by omega)⟩
        · -- the source in slot `i`, which still has its original id, is rewritten from itself
          rw [heq]
          refine ⟨hst, ?_⟩
          intro n a ha
          obtain ⟨b, hb, hrel, hid⟩ := hslot n a ha
          have hilt : i < s.actions.length := (List.getElem?_eq_some.mp he).1
          by_cases hni : i = n
          · subst hni
            rw [he] at hb
            cases hb
            have heid : e.id = a.id := hid (le_refl _)
            refine ⟨_, List.getElem?_set_self hilt, Or.inr ⟨e, hmem, Or.inl heid, ?_⟩, ?_⟩
            · rcases hrel with hba | ⟨e', _, _, hbe⟩
              · rw [hba]
              · rw [hbe]
                rfl
            · intro hn
              omega
          · exact ⟨b, by rw [List.getElem?_set_ne hni]; exact hb, hrel,
              fun hn => hid (by omega)⟩
        · -- a clone of the source in slot `i`, which still has its original id, is staged
          rw [heq]
          refine ⟨?_, ?_⟩
          · intro m hm
            rcases List.mem_append.mp hm with hin | hin
            · exact hst m hin
            · rw [List.mem_singleton] at hin
              have hilt : i < actions.length := by
                rw [← hlen]; exact (List.getElem?_eq_some.mp he).1
              obtain ⟨b, hb, _, hid⟩ := hslot i actions[i] (List.getElem?_eq_getElem hilt)
              have hbe : b = e := by
                have hb' : s.actions[i]? = some b := hb
                rw [he] at hb'
                cases hb'
                rfl
              refine ⟨e, hmem, hin, ?_⟩
              rw [← hbe, hid (le_refl _)]
              exact mem_actionIds.mpr
                ⟨actions[i], List.mem_iff_getElem?.mpr ⟨i, List.getElem?_eq_getElem hilt⟩, rfl⟩
          · intro n a ha
            obtain ⟨b, hb, hrel, hid⟩ := hslot n a ha
            exact ⟨b, hb, hrel, fun hn => hid (by omega)⟩
  obtain ⟨h1, h2, h3⟩ := key
  refine ⟨h1, h2, ?_⟩
  intro n a ha
  obtain ⟨b, hb, hrel, _⟩ := h3 n a ha
  exact ⟨b, hb, hrel⟩

/-- With candidate ids that are no synthetic ids, every source of the loop is an original action
of the group: the staged actions are clones of original actions and a rewritten slot is rewritten
from an original action. -/
theorem groupLoop_slots_sources (c : Constants) (itemIds : List String) (actions : List Action)
    (replace : Bool) (hC : ∀ x ∈ itemIds, isItemMacroId x = false) :
    (∀ m ∈ (groupLoop c itemIds actions replace).staged,
        ∃ e ∈ actions, e.id ∈ itemIds ∧ m = _createItemMacroAction c e e false) ∧
      (∀ (n : Nat) (a : Action), actions[n]? = some a →
        ∃ b : Action, (groupLoop c itemIds actions replace).actions[n]? = some b ∧
          (b = a ∨ ∃ e ∈ actions, e.id ∈ itemIds ∧ (e.id = a.id ∨ itemMacroId e.id = a.id) ∧
            b = _createItemMacroAction c e a true)) := by
  have key : (groupLoop c itemIds actions replace).actions.length = actions.length ∧
      (∀ m ∈ (groupLoop c itemIds actions replace).staged,
        ∃ e ∈ actions, e.id ∈ itemIds ∧ m = _createItemMacroAction c e e false) ∧
      (∀ (n : Nat) (a : Action), actions[n]? = some a →
        ∃ b : Action, (groupLoop c itemIds actions replace).actions[n]? = some b ∧
          (b = a ∨ ∃ e ∈ actions, e.id ∈ itemIds ∧ (e.id = a.id ∨ itemMacroId e.id = a.id) ∧
            b = _createItemMacroAction c e a true) ∧
          (actions.length ≤ n → b = a ∨ ∃ e ∈ actions, e.id ∈ itemIds ∧
            itemMacroId e.id = a.id ∧ b = _createItemMacroAction c e a true)) := by
    unfold groupLoop
    refine foldl_range_induction (groupStep c itemIds)
      (fun (i : Nat) (s : LoopState) =>
        s.actions.length = actions.length ∧
          (∀ m ∈ s.staged, ∃ e ∈ actions, e.id ∈ itemIds ∧ m = _createItemMacroAction c e e false) ∧
          (∀ (n : Nat) (a : Action), actions[n]? = some a →
            ∃ b : Action, s.actions[n]? = some b ∧
              (b = a ∨ ∃ e ∈ actions, e.id ∈ itemIds ∧
                (e.id = a.id ∨ itemMacroId e.id = a.id) ∧
                b = _createItemMacroAction c e a true) ∧
              (i ≤ n → b = a ∨ ∃ e ∈ actions, e.id ∈ itemIds ∧
                itemMacroId e.id = a.id ∧ b = _createItemMacroAction c e a true)))
      actions.length ⟨actions, replace, []⟩ ?_ ?_
    · exact ⟨rfl, by simp, fun n a ha => ⟨a, ha, Or.inl rfl, fun _ => Or.inl rfl⟩⟩
    · intro i s _ hs
      obtain ⟨hlen, hst, hslot⟩ := hs
      refine ⟨by rw [groupStep_length]; exact hlen, ?_⟩
      rcases groupStep_cases c itemIds s i with ⟨heq, _⟩ | ⟨e, he, hmem, hcase⟩
      · rw [heq]
        refine ⟨hst, ?_⟩
        intro n a ha
        obtain ⟨b, hb, hrel, hun⟩ := hslot n a ha
        exact ⟨b, hb, hrel, fun hn => hun (by omega)⟩
      · -- the source in slot `i` is the original action of that slot
        have hilt : i < actions.length := by
          rw [← hlen]; exact (List.getElem?_eq_some.mp he).1
        have horig : actions[i]? = some e := by
          obtain ⟨b, hb, _, hun⟩ := hslot i actions[i] (List.getElem?_eq_getElem hilt)
          rw [he] at hb
          cases hb
          rcases hun (le_refl _) with hba | ⟨e', _, _, _, hbe⟩
          · rw [hba]; exact List.getElem?_eq_getElem hilt
          · have hsyn : itemMacroId e'.id ∈ itemIds := by
              have h := hmem
              rw [hbe] at h
              exact h
            exact absurd hsyn (not_candidate_itemMacroId hC e'.id)
        have heact : e ∈ actions := List.mem_iff_getElem?.mpr ⟨i, horig⟩
        rcases hcase with ⟨j, t, hj, htid, _, heq⟩ | ⟨_, _, heq⟩ | ⟨_, _, heq⟩
        · rw [heq]
          refine ⟨hst, ?_⟩
          intro n a ha
          obtain ⟨b, hb, hrel, hun⟩ := hslot n a ha
          have hjlt : j < s.actions.length := (List.getElem?_eq_some.mp hj).1
          by_cases hnj : j = n
          · subst hnj
            rw [hj] at hb
            cases hb
            have hnew : _createItemMacroAction c e t true = _createItemMacroAction c e a true := by
              rcases hrel with hba | ⟨e', _, _, _, hbe⟩
              · rw [hba]
              · rw [hbe, _createItemMacroAction_collapse]
            refine ⟨_, List.getElem?_set_self hjlt, Or.inr ⟨e, heact, hmem, ?_, hnew⟩, ?_⟩
            · rcases hrel with hba | ⟨e', _, _, hdisj, hbe⟩
              · right
                rw [← htid, hba]
              · have hee : e'.id = e.id := by
                  apply itemMacroId_injective
                  rw [← htid, hbe]
                  rfl
                rw [← hee]
                exact hdisj
            · intro hn
              right
              refine ⟨e, heact, hmem, ?_, hnew⟩
              rcases hun (by omega) with hba | ⟨e', _, _, hid', hbe⟩
              · rw [← htid, hba]
              · rw [← htid, hbe]
                exact hid'
          · exact ⟨b, by rw [List.getElem?_set_ne hnj]; exact hb, hrel,
              fun hn => hun (by omega)⟩
        · rw [heq]
          refine ⟨hst, ?_⟩
          intro n a ha
          obtain ⟨b, hb, hrel, hun⟩ := hslot n a ha
          have hilt' : i < s.actions.length := (List.getElem?_eq_some.mp he).1
          by_cases hni : i = n
          · subst hni
            rw [horig] at ha
            cases ha
            exact ⟨_, List.getElem?_set_self hilt', Or.inr ⟨e, heact, hmem, Or.inl rfl, rfl⟩,
              fun hn => absurd hn (by omega)⟩
          · exact ⟨b, by rw [List.getElem?_set_ne hni]; exact hb, hrel,
              fun hn => hun (by omega)⟩
        · rw [heq]
          refine ⟨?_, ?_⟩
          · intro m hm
            rcases List.mem_append.mp hm with hin | hin
            · exact hst m hin
            · rw [List.mem_singleton] at hin
              exact ⟨e, heact, hmem, hin⟩
          · intro n a ha
            obtain ⟨b, hb, hrel, hun⟩ := hslot n a ha
            exact ⟨b, hb, hrel, fun hn => hun (by omega)⟩
  obtain ⟨_, h2, h3⟩ := key
  refine ⟨h2, ?_⟩
  intro n a ha
  obtain ⟨b, hb, hrel, _⟩ := h3 n a ha
  exact ⟨b, hb, hrel⟩

/-- C12 (order preservation).  For every group of the tree, every candidate list and every
setting, the resulting action list splits into the newly inserted synthetic actions, each the
clone of a candidate action that has the id of an action of the group, and the list `kept` that
remains when they are deleted.  The list `kept` has the original length, its elements stand in
the result in the same relative order, and its `i`-th element is the original `i`-th action:
unchanged, or rewritten in place from a candidate action that has the id of the original (the
original is replaced by its synthetic action) or whose synthetic id is the id of the original
(the original is a synthetic twin and is refreshed).  When no candidate id is a synthetic id,
the actions cloned and the actions rewritten from are original actions of the group.  In a group
with unique ids and without an action that has the synthetic id of a candidate, `kept` is the
original list itself, or in mode `'itemMacro'` the original list with each candidate action
replaced in its slot. -/
theorem C12_original_actions_keep_order (c : Constants) (itemIds : List String)
    (setting : String) (groups : List Group) (k : Nat) (g : Group) (hg : groups[k]? = some g) :
    ∃ (g' : Group) (kept inserted : List Action),
      (extendGroups c itemIds setting groups)[k]? = some g' ∧
      kept.Sublist g'.actions ∧ g'.actions.Perm (inserted ++ kept) ∧
      kept.length = g.actions.length ∧
      (∀ m ∈ inserted, ∃ e : Action, e.id ∈ itemIds ∧ m = _createItemMacroAction c e e false ∧
        e.id ∈ actionIds g.actions) ∧
      (∀ (i : Nat) (a : Action), g.actions[i]? = some a →
        ∃ b : Action, kept[i]? = some b ∧
          (b = a ∨ ∃ e : Action, e.id ∈ itemIds ∧ (e.id = a.id ∨ itemMacroId e.id = a.id) ∧
            b = _createItemMacroAction c e a true)) ∧
      ((∀ x ∈ itemIds, isItemMacroId x = false) →
        (∀ m ∈ inserted, ∃ e ∈ g.actions, e.id ∈ itemIds ∧
          m = _createItemMacroAction c e e false) ∧
        (∀ (i : Nat) (a : Action), g.actions[i]? = some a →
          ∃ b : Action, kept[i]? = some b ∧
            (b = a ∨ ∃ e ∈ g.actions, e.id ∈ itemIds ∧
              (e.id = a.id ∨ itemMacroId e.id = a.id) ∧
              b = _createItemMacroAction c e a true))) ∧
      ((∀ x ∈ itemIds, itemMacroId x ∉ actionIds g.actions) → (actionIds g.actions).Nodup →
        kept = if setting = "itemMacro" then g.actions.map (replaceCandidate c itemIds)
          else g.actions) := by
  rw [extendGroups_getElem?, hg]
  by_cases h1 : itemIds.length = 0
  · refine ⟨g, g.actions, [], by simp [h1], List.Sublist.refl _, by simp, rfl, by simp,
      fun i a ha => ⟨a, ha, Or.inl rfl⟩,
      fun _ => ⟨by simp, fun i a ha => ⟨a, ha, Or.inl rfl⟩⟩, ?_⟩
    intro _ _
    have hnil : itemIds = [] := List.length_eq_zero.mp h1
    have hid : replaceCandidate c itemIds = id := by
      funext a
      simp [replaceCandidate, hnil]
    rw [hid, List.map_id]
    split_ifs <;> rfl
  · by_cases h2 : setting = "original"
    · refine ⟨g, g.actions, [], by simp [h1, h2], List.Sublist.refl _, by simp, rfl, by simp,
        fun i a ha => ⟨a, ha, Or.inl rfl⟩,
        fun _ => ⟨by simp, fun i a ha => ⟨a, ha, Or.inl rfl⟩⟩, ?_⟩
      intro _ _
      have h3 : ¬ (setting = "itemMacro") := by
        rw [h2]; decide
      rw [if_neg h3]
    · obtain ⟨hlen, hst, hslot⟩ := groupLoop_slots c itemIds g.actions (setting == "itemMacro")
      refine ⟨_addGroupActions c itemIds g (setting == "itemMacro"),
        (groupLoop c itemIds g.actions (setting == "itemMacro")).actions,
        (groupLoop c itemIds g.actions (setting == "itemMacro")).staged, by simp [h1, h2],
        ?_, ?_, hlen, hst, hslot,
        fun hC => groupLoop_slots_sources c itemIds g.actions (setting == "itemMacro") hC, ?_⟩
      · rw [_addGroupActions_actions]
        exact _addActions_sublist _ _
      · rw [_addGroupActions_actions]
        exact _addActions_perm _ _
      · intro hfresh hnd
        by_cases h3 : setting = "itemMacro"
        · have hb : (setting == "itemMacro") = true := by simp [h3]
          rw [hb, if_pos h3]
          exact (groupLoop_replace c itemIds g.actions hnd hfresh).1
        · have hb : (setting == "itemMacro") = false := by simp [h3]
          rw [hb, if_neg h3, groupLoop_both_fresh c itemIds g.actions hfresh]

theorem C12_original_actions_keep_order_witness :
    [groupAB][0]? = some groupAB ∧
      extendGroups sampleConstants ["a", "b"] "both" [groupAB] =
        [⟨"g", [sampleMacroAction "b", sampleMacroAction "a", sampleAction "a",
          sampleAction "b"]⟩] ∧
      ∃ (g' : Group) (kept inserted : List Action),
        (extendGroups sampleConstants ["a", "b"] "both" [groupAB])[0]? = some g' ∧
        kept.Sublist g'.actions ∧ g'.actions.Perm (inserted ++ kept) ∧
        kept.length = groupAB.actions.length ∧ kept = groupAB.actions ∧
        (∀ m ∈ inserted, ∃ e ∈ groupAB.actions, e.id ∈ ["a", "b"] ∧
          m = _createItemMacroAction sampleConstants e e false) := by
  refine ⟨rfl, by decide, ?_⟩
  obtain ⟨g', kept, inserted, h1, h2, h3, h4, _, _, h7, h8⟩ :=
    C12_original_actions_keep_order sampleConstants ["a", "b"] "both" [groupAB] 0 groupAB rfl
  refine ⟨g', kept, inserted, h1, h2, h3, h4, ?_, (h7 (by decide)).1⟩
  have h := h8 (by decide) (by decide)
  rw [h]
  decide

end TokenActionHud
